import Mathlib

/-!
Verification of the kubeclipper node-provisioning core (registry
reconciliation, component step generation, trust-store rendering, container
teardown, join-command extraction) against its natural-language
specification.  Each definition is a shallow embedding of a Go function of
the repository; definitions come first, then the theorems.
-/

set_option maxHeartbeats 1000000
set_option maxRecDepth 100000

deriving instance DecidableEq for Except

/-- Lexicographic order on character lists, the order Go `strings.Compare`
uses (UTF-8 byte order coincides with code-point order). -/
def charListLtB : List Char → List Char → Bool
  | [], [] => false
  | [], _ :: _ => true
  | _ :: _, [] => false
  | a :: as, b :: bs => decide (a < b) || (a == b && charListLtB as bs)

/-- Strict lexicographic order on strings (Go `strings.Compare(a, b) < 0`). -/
def strLtB (a b : String) : Bool :=
  charListLtB a.data b.data

/-- Go `strings.Compare`. -/
def goCompare (a b : String) : Ordering :=
  if strLtB a b then .lt else if a.data == b.data then .eq else .gt

/-- Model of `v1.RegistrySpec`. Modelled from the spec:
`{Scheme, Host, SkipVerify, CA, RegistryAuth}` (§3; the struct declaration
itself is not part of the excerpt, but `cri_utils.go` and `containerd.go`
read exactly these fields).  `registryAuth` is a nil-able Go pointer
(`containerd.go` tests `r.RegistryAuth != nil`); Go struct comparison
compares such a field by address, so the model carries an abstract pointer
identity (`Option Nat`, `none` = nil). -/
structure RegistrySpec where
  scheme : String
  host : String
  skipVerify : Bool := false
  ca : String := ""
  registryAuth : Option Nat := none
deriving DecidableEq, Repr

/-- Identity key of a registry entry: `r.Scheme + r.Host`
(string concatenation, `cri_utils.go:101`). -/
def RegistrySpec.key (r : RegistrySpec) : String :=
  r.scheme ++ r.host

/-- The loop of Go `sort.Find` (binary search for the smallest index with
`cmp(h) <= 0`).  The fuel argument only bounds the iteration count; `j - i`
strictly decreases every iteration, so fuel `n + 1` is never exhausted when
the loop starts at `i = 0, j = n`. -/
def sortFindLoop (cmp : Nat → Ordering) : Nat → Nat → Nat → Nat
  | 0, i, _ => i
  | fuel + 1, i, j =>
    if i < j then
      let h := (i + j) / 2
      if cmp h = .gt then sortFindLoop cmp fuel (h + 1) j
      else sortFindLoop cmp fuel i h
    else i

/-- Go `sort.Find(n, cmp)`: `(i, found)` with `found = i < n && cmp(i) == 0`. -/
def sortFind (cmp : Nat → Ordering) (n : Nat) : Nat × Bool :=
  (sortFindLoop cmp (n + 1) 0 n,
   decide (sortFindLoop cmp (n + 1) 0 n < n) &&
     decide (cmp (sortFindLoop cmp (n + 1) 0 n) = Ordering.eq))

/-- Comparator closure passed to `sort.Find`:
`strings.Compare(key r, key s[i])` (out-of-range indices never arise inside
`sort.Find`; the default value is arbitrary). -/
def insertCmp (key : α → String) (s : List α) (r : α) : Nat → Ordering :=
  fun i => goCompare (key r) (key (s.getD i r))

/-- One iteration of the loop bodies of `appendUniqueRegistry`
(`cri_utils.go:100-113`) and of the addon-mirror insert
(`cri_utils.go:51-61`), generic in the identity key: binary-search for the
key; if the key is absent, insert at the returned index (the Go
`append(s[:idx+1], s[idx:]...)`; `s[idx] = r` idiom inserts `r` at `idx`). -/
def insertUniqueBy (key : α → String) (s : List α) (r : α) : List α :=
  if (sortFind (insertCmp key s r) s.length).2 then s
  else
    s.take (sortFind (insertCmp key s r) s.length).1 ++
      r :: s.drop (sortFind (insertCmp key s r) s.length).1

/-- `appendUniqueRegistry(s, items...)` (`cri_utils.go:99-115`): fold the
duplicate-avoiding sorted insert over the items. -/
def appendUniqueRegistry (s : List RegistrySpec) (items : List RegistrySpec) : List RegistrySpec :=
  items.foldl (insertUniqueBy RegistrySpec.key) s

/-- Strict ascending order by identity key: this single predicate captures
both halves of the reconciler invariant (sorted ascending, and no two
entries share a key). -/
def KeySorted (s : List RegistrySpec) : Prop :=
  s.Pairwise (fun x y => strLtB x.key y.key = true)

instance (s : List RegistrySpec) : Decidable (KeySorted s) := by
  unfold KeySorted
  infer_instance

/-- Model of a cluster node; the claims here depend only on which nodes a
step targets, so a node is its name. -/
structure Node where
  name : String
deriving DecidableEq, Repr

/-- Minimal model of `v1.Step` (§3): the fields the claims inspect (the
step's name and target node list). -/
structure Step where
  name : String := ""
  nodes : List Node := []
deriving DecidableEq, Repr

/-- Outcome of a Go call that can fail: a returned error value or a runtime
panic. -/
inductive GoAbort where
  | goError (msg : String)
  | panic (msg : String)
deriving DecidableEq, Repr

/-- `registriesEqual` (`cri_utils.go:117-127`): length check, then
element-wise Go struct comparison. -/
def registriesEqual (a b : List RegistrySpec) : Bool :=
  if a.length ≠ b.length then false
  else (a.zip b).all fun p => p.1 == p.2

/-- Model of `clustercontroller.CRIRegistryUpdateStep`. Modelled from the
spec: the external collaborator "construct[s] an update `Step` targeting
every node labeled as a member of the cluster" (§4.1); its internals are
outside the excerpt, so it is modelled as returning an update step over
exactly the wrapped nodes it is given. -/
def CRIRegistryUpdateStepExternal (registries : List RegistrySpec) (nodes : List Node) :
    Except GoAbort (Option Step) :=
  .ok (some { name := "updateRegistries", nodes := nodes })

/-- Go slice element assignment `l[i] = x`: writing past the length
panics (`none`). -/
def goSliceSet (l : List α) (i : Nat) (x : α) : Option (List α) :=
  if i < l.length then some (l.set i x) else none

/-- The wrapping loop of `criRegistryUpdateStep` (`cri_utils.go:144-147`):
`wrapNodes := make([]*v1.Node, 0, len(nodes))` creates a slice of length
zero (capacity `len(nodes)`), and the loop then assigns `wrapNodes[i]` for
every index of `nodes` — an out-of-bounds write as soon as `nodes` is
non-empty. A `*v1.Node` pointer is modelled by the node value. -/
def wrapNodesResult (nodes : List Node) : Option (List Node) :=
  (List.range nodes.length).foldlM
    (fun acc i => goSliceSet acc i (nodes.getD i ⟨""⟩)) []

/-- `criRegistryUpdateStep` (`cri_utils.go:143-149`). -/
def criRegistryUpdateStep (registries : List RegistrySpec) (nodes : List Node) :
    Except GoAbort (Option Step) :=
  match wrapNodesResult nodes with
  | none => .error (.panic "index out of range")
  | some wrapped => CRIRegistryUpdateStepExternal registries wrapped

/-- `getCRIRegistriesStep` (`cri_utils.go:129-141`): if recorded and desired
registries differ, list the cluster's member nodes (the external node
discovery's outcome is the `nodesResult` argument; a discovery error is
wrapped as the error `"list"`) and build the update step; otherwise no step
and no error. -/
def getCRIRegistriesStep (nodesResult : Except String (List Node))
    (recorded desired : List RegistrySpec) : Except GoAbort (Option Step) :=
  if !registriesEqual recorded desired then
    match nodesResult with
    | .error _ => .error (.goError "list")
    | .ok nodes => criRegistryUpdateStep desired nodes
  else .ok none

/-- Result of the external registry lookup `GetRegistry` (§6): the resolved
registry object (its `RegistrySpec`), a not-found error
(`apimachineryErrors.IsNotFound`), or any other error. -/
inductive LookupResult where
  | found (spec : RegistrySpec)
  | notFound
  | otherError (msg : String)
deriving DecidableEq, Repr

/-- An element of `c.ContainerRuntime.Registries`: a literal insecure-host
string or a reference to a named registry object (`RegistryRef`, a nil-able
`*string`, modelled by `Option`). -/
structure CRIRegistry where
  insecureRegistry : String := ""
  registryRef : Option String := none
deriving DecidableEq, Repr

/-- The parts of `v1.Cluster` read by `getClusterCRIRegistries`: the
declared insecure-registry host list, the addons — each represented by the
outcome of `json.Unmarshal` of its raw config into `{imageRepoMirror}`
(`none` models a parse failure, otherwise the parsed mirror field) — and
the explicit registry list. -/
structure Cluster where
  insecureRegistry : List String
  addons : List (Option String)
  registries : List CRIRegistry
deriving DecidableEq, Repr

/-- Go `sort.Strings` (`cri_utils.go:42`). Strings that compare equal are
identical, so every correct sort produces the same output and insertion
sort is a faithful model of the stdlib sort. -/
def sortStrings (l : List String) : List String :=
  l.insertionSort fun a b => strLtB b a = false

/-- The insecure-host list after sorting and addon-mirror merging
(`cri_utils.go:41-63`): parse failures are skipped, empty mirrors are
skipped, and each mirror host is merged by the same binary-search
duplicate-avoiding insert (the identity key of a host string is itself). -/
def insecureAfterAddons (c : Cluster) : List String :=
  c.addons.foldl
    (fun acc a =>
      match a with
      | none => acc
      | some m => if m ≠ "" then insertUniqueBy id acc m else acc)
    (sortStrings c.insecureRegistry)

/-- The `http` half of the expansion of an insecure host
(`cri_utils.go:69` and `79`). -/
def httpSpec (host : String) : RegistrySpec :=
  ⟨"http", host, false, "", none⟩

/-- The `https`+`SkipVerify` half of the expansion of an insecure host
(`cri_utils.go:70` and `80`). -/
def httpsSpec (host : String) : RegistrySpec :=
  ⟨"https", host, true, "", none⟩

/-- The registry set after merging every insecure host
(`cri_utils.go:65-71`). -/
def regsAfterInsecure (c : Cluster) : List RegistrySpec :=
  (insecureAfterAddons c).foldl
    (fun acc host => appendUniqueRegistry acc [httpSpec host, httpsSpec host]) []

/-- The loop over the cluster's explicit registries (`cri_utils.go:73-95`):
a literal entry (nil or empty `RegistryRef`) is expanded like an insecure
host and kept (with its ref normalised to nil); a real reference is
resolved — not-found drops the entry, any other lookup error aborts with
`fmt.Errorf("get registry %s:%w", ...)`; a resolved registry's spec is
merged and the entry kept.  `regs`/`valid` accumulate `registries` and
`validRegistries`. -/
def explicitLoop (lookup : String → LookupResult) :
    List CRIRegistry → List RegistrySpec → List CRIRegistry →
      Except String (List RegistrySpec × List CRIRegistry)
  | [], regs, valid => .ok (regs, valid)
  | e :: rest, regs, valid =>
    match e.registryRef with
    | none =>
      explicitLoop lookup rest
        (appendUniqueRegistry regs [httpSpec e.insecureRegistry, httpsSpec e.insecureRegistry])
        (valid ++ [{ e with registryRef := none }])
    | some ref =>
      if ref = "" then
        explicitLoop lookup rest
          (appendUniqueRegistry regs [httpSpec e.insecureRegistry, httpsSpec e.insecureRegistry])
          (valid ++ [{ e with registryRef := none }])
      else
        match lookup ref with
        | .found spec =>
          explicitLoop lookup rest (appendUniqueRegistry regs [spec]) (valid ++ [e])
        | .notFound => explicitLoop lookup rest regs valid
        | .otherError msg => .error ("get registry " ++ ref ++ ":" ++ msg)

/-- `getClusterCRIRegistries` (`cri_utils.go:37-96`): the merged registry
set together with the rewritten (validated) explicit registry list that the
function stores back into `c.ContainerRuntime.Registries`. -/
def getClusterCRIRegistries (lookup : String → LookupResult) (c : Cluster) :
    Except String (List RegistrySpec × List CRIRegistry) :=
  explicitLoop lookup c.registries (regsAfterInsecure c) []

/-- An explicit registry entry on which the lookup collaborator reports a
hard (non-not-found) error. -/
def entryHardErr (lookup : String → LookupResult) (e : CRIRegistry) : Prop :=
  ∃ ref msg, e.registryRef = some ref ∧ ref ≠ "" ∧ lookup ref = .otherError msg

instance (lookup : String → LookupResult) (e : CRIRegistry) :
    Decidable (entryHardErr lookup e) := by
  unfold entryHardErr
  cases h : e.registryRef with
  | none => exact .isFalse (by simp [h])
  | some ref =>
    by_cases he : ref = ""
    · exact .isFalse (by simp [h, he])
    · cases hl : lookup ref with
      | otherError msg => exact .isTrue ⟨ref, msg, by simp [h, he, hl]⟩
      | found spec => exact .isFalse (by simp [h, hl])
      | notFound => exact .isFalse (by simp [h, hl])

/-- The sequence of specs the explicit-registry loop hands to
`appendUniqueRegistry` on a run with no hard lookup error. -/
def explicitSpecs (lookup : String → LookupResult) : List CRIRegistry → List RegistrySpec
  | [] => []
  | e :: rest =>
    match e.registryRef with
    | none =>
      httpSpec e.insecureRegistry :: httpsSpec e.insecureRegistry :: explicitSpecs lookup rest
    | some ref =>
      if ref = "" then
        httpSpec e.insecureRegistry :: httpsSpec e.insecureRegistry :: explicitSpecs lookup rest
      else
        match lookup ref with
        | .found spec => spec :: explicitSpecs lookup rest
        | .notFound => explicitSpecs lookup rest
        | .otherError _ => []

/-- The validated explicit registry list the loop writes back: literal
entries with the ref normalised to nil, resolved entries unchanged,
not-found entries dropped. -/
def validOf (lookup : String → LookupResult) : List CRIRegistry → List CRIRegistry
  | [] => []
  | e :: rest =>
    match e.registryRef with
    | none => { e with registryRef := none } :: validOf lookup rest
    | some ref =>
      if ref = "" then { e with registryRef := none } :: validOf lookup rest
      else
        match lookup ref with
        | .found _ => e :: validOf lookup rest
        | .notFound => validOf lookup rest
        | .otherError _ => []

/-- Every spec handed to `appendUniqueRegistry` over a whole successful run
of `getClusterCRIRegistries`, in order. -/
def insertedSpecs (lookup : String → LookupResult) (c : Cluster) : List RegistrySpec :=
  ((insecureAfterAddons c).flatMap fun h => [httpSpec h, httpsSpec h]) ++
    explicitSpecs lookup c.registries

/-- The slice of `CalicoRunnable` state these claims read: the calico
version (`runnable.Version`). -/
structure CalicoRunnable where
  version : String
deriving DecidableEq, Repr

/-- Modelled from the spec: `RenderYaml` produces the single step that
renders the version-pinned manifest on the nodes (§4.2); not part of the
excerpt. -/
def RenderYaml (component : String) (nodes : List Node) : Step :=
  { name := "render-" ++ component, nodes := nodes }

/-- Modelled from the spec: `ApplyYaml` produces the single step that
applies a manifest file (§4.2); not part of the excerpt. -/
def ApplyYaml (file : String) (nodes : List Node) : Step :=
  { name := "apply-" ++ file, nodes := nodes }

/-- Modelled from the spec: `InstallCalicoRelease` produces the single step
installing the packaged chart release (§4.2 "install via a packaged
chart"); not part of the excerpt. -/
def InstallCalicoRelease (nodes : List Node) : Step :=
  { name := "install-calico-release", nodes := nodes }

/-- `CalicoRunnable.InstallSteps` (`src/unnamed/part_000:123-149`): marshal
the runnable (a struct of strings and booleans — Go `json.Marshal` cannot
fail on it), then branch on `IsHighKubeVersion(kubernetesVersion)` — a
threshold test on the *kubernetes* version, modelled as the boolean
`isHigh`: the high path appends the chart steps (`chartSteps` stands for
the output of the external `common.Chart.InstallStepsV2`, modelled from
the spec), a render step and a release-install step; the low path a render
step and an apply step.  Neither path consults the calico version table. -/
def calicoInstallSteps (runnable : CalicoRunnable) (isHigh : Bool)
    (chartSteps : List Step) (nodes : List Node) : Except String (List Step) :=
  if isHigh then
    .ok (chartSteps ++ [RenderYaml "calico" nodes, InstallCalicoRelease nodes])
  else
    .ok [RenderYaml "calico" nodes, ApplyYaml "manifests/calico.yaml" nodes]

/-- `CalicoRunnable.CalicoTemplate` (`src/unnamed/part_000:199-215`): the
closed version table; the template constants are embedded assets outside
the excerpt, modelled by distinct tag strings (only which versions map,
not the template text, matters to the claims). -/
def CalicoTemplate (runnable : CalicoRunnable) : Except String String :=
  match runnable.version with
  | "v3.11.2" => .ok "calicoV3112"
  | "v3.16.10" => .ok "calicoV31610"
  | "v3.21.2" => .ok "calicoV3212"
  | "v3.22.4" => .ok "calicoV3224"
  | "v3.24.5" => .ok "calicoV3245"
  | "v3.26.1" => .ok "calicoV3261"
  | v => .error ("calico dose not support version: " ++ v)

/-- The six calico versions of the closed table. -/
def calicoSupportedVersions : List String :=
  ["v3.11.2", "v3.16.10", "v3.21.2", "v3.22.4", "v3.24.5", "v3.26.1"]

/-- Outcome of `task.Kill` for a container's task: success, a not-found
error (race with external termination), or any other error. -/
inductive KillOutcome where
  | ok
  | notFound
  | otherError (msg : String)
deriving DecidableEq, Repr

/-- The behaviour of one container's task as `deleteContainer` observes it
(`k8s/utils.go:120-152`): the outcome of `task.Wait` (`none` = the status
channel is obtained), of `task.Kill`, of `status.Result()` after the exit
signal, and whether `task.Delete` fails (logged and ignored). -/
structure TaskModel where
  waitErr : Option String := none
  killOutcome : KillOutcome := .ok
  resultErr : Option String := none
  deleteFails : Bool := false
deriving DecidableEq, Repr

/-- One container of the namespace: its task (`none` when `ctr.Task`
errors — "it may has not task at all", warned and tolerated) and whether
`ctr.Delete` fails (logged and ignored). -/
structure Container where
  task : Option TaskModel := none
  deleteFails : Bool := false
deriving DecidableEq, Repr

/-- The per-container loop of `deleteContainer` (`k8s/utils.go:118-161`),
entered after the client connection and container listing succeeded: no
task — warn and move on (the container delete that follows is ignored on
failure); `task.Wait` error — return it; `task.Kill` not-found — continue
with the next container; other kill error — return it; `status.Result()`
error — return it; `task.Delete` and `ctr.Delete` failures — logged and
ignored. -/
def deleteContainerLoop : List Container → Except String Unit
  | [] => .ok ()
  | c :: rest =>
    match c.task with
    | none => deleteContainerLoop rest
    | some t =>
      match t.waitErr with
      | some e => .error e
      | none =>
        match t.killOutcome with
        | .notFound => deleteContainerLoop rest
        | .otherError e => .error e
        | .ok =>
          match t.resultErr with
          | some e => .error e
          | none => deleteContainerLoop rest

/-- A container on which the teardown loop hard-fails: a wait-channel
failure, an unexpected (non-not-found) kill failure, or an exit-status
retrieval failure. -/
def containerFatal (c : Container) : Prop :=
  ∃ t, c.task = some t ∧
    (t.waitErr ≠ none ∨ (∃ e, t.killOutcome = .otherError e) ∨
      (t.killOutcome = .ok ∧ t.resultErr ≠ none))

/-- Per-protocol endpoint attributes of a registry host
(`containerd.go:392-398`). -/
structure ContainerdHost where
  scheme : String
  host : String
  capabilities : List String := []
  skipVerify : Bool := false
  ca : String := ""
deriving DecidableEq, Repr

/-- Intermediate per-host model `ContainerdRegistry`
(`containerd.go:400-403`): the registry host (`Server`, no scheme) and its
protocol endpoints. -/
structure ContainerdRegistry where
  server : String
  hosts : List ContainerdHost := []
deriving DecidableEq, Repr

/-- What a per-host subdirectory of the config dir holds: content present
before this reconciliation (`legacy`), or the `hosts.toml` (and CA files)
that `renderConfigs` writes for a desired registry — modelled by the
registry value it was rendered from. -/
inductive DirContent where
  | legacy
  | rendered (r : ContainerdRegistry)
deriving DecidableEq, Repr

/-- Outcome of `os.ReadDir(configDir)` (`containerd.go:335`): the directory
entries (name, is-directory flag), `os.ErrNotExist`, or any other error. -/
inductive ReadDirResult where
  | ok (entries : List (String × Bool))
  | notExist
  | otherError (msg : String)
deriving DecidableEq, Repr

/-- Create-or-overwrite of one per-host subdirectory. -/
def fsSet : List (String × DirContent) → String → DirContent → List (String × DirContent)
  | [], name, content => [(name, content)]
  | (n, c) :: rest, name, content =>
    if n = name then (n, content) :: rest else (n, c) :: fsSet rest name content

/-- `os.RemoveAll` of one per-host subdirectory. -/
def fsRemove : List (String × DirContent) → String → List (String × DirContent)
  | [], _ => []
  | (n, c) :: rest, name =>
    if n = name then fsRemove rest name else (n, c) :: fsRemove rest name

/-- Directory lookup in the modelled config dir. -/
def fsGet : List (String × DirContent) → String → Option DirContent
  | [], _ => none
  | (n, c) :: rest, name => if n = name then some c else fsGet rest name

/-- The certs.d phase of `ContainerdRegistryConfigure.Install` after
`os.ReadDir` produced `entries` (`containerd.go:339-357`): collect the
subdirectory names as the old-dirs set; render every desired registry into
its subdirectory (a render failure — the `renderFails` oracle — aborts
with an error, as `renderConfigs` errors do), deleting its server from the
old-dirs set; then `os.RemoveAll` every remaining old dir, tolerating
failures (the `removeFails` oracle). -/
def installAfterRead (entries : List (String × Bool)) (desired : List ContainerdRegistry)
    (renderFails removeFails : String → Bool) : Except String (List (String × DirContent)) :=
  match desired.foldlM
      (fun fs r =>
        if renderFails r.server then Except.error ("renderConfigs failed:" ++ r.server)
        else .ok (fsSet fs r.server (.rendered r)))
      ((entries.filter fun e => e.2).map fun e => (e.1, DirContent.legacy)) with
  | .error e => .error e
  | .ok fs1 =>
    .ok ((((entries.filter fun e => e.2).map fun e => e.1).filter
        fun d => !desired.any fun r => r.server == d).foldl
      (fun fs d => if removeFails d then fs else fsRemove fs d) fs1)

/-- `ContainerdRegistryConfigure.Install` (`containerd.go:330-376`), dry-run
false: a missing config dir is treated as zero existing entries, any other
`ReadDir` error aborts; the trailing `config.toml` rewrite, daemon reload
and service restart only log their failures and do not touch the certs.d
tree, so the returned value is the final certs.d state.  Go iterates the
`Registries` map in unspecified order; `desired` fixes one order, and the
claims' scenarios have distinct servers, making the result
order-independent. -/
def containerdRegistryConfigureInstall (readDir : ReadDirResult)
    (desired : List ContainerdRegistry) (renderFails removeFails : String → Bool) :
    Except String (List (String × DirContent)) :=
  match readDir with
  | .otherError msg => .error ("read registry config dir failed:" ++ msg)
  | .notExist => installAfterRead [] desired renderFails removeFails
  | .ok entries => installAfterRead entries desired renderFails removeFails

/-- Is the character in `0123456789` (the digits Go `strconv.Atoi`
accepts), stated over code points so the arithmetic stays in `Nat`. -/
def isDigitB (ch : Char) : Bool :=
  decide (48 ≤ ch.toNat) && decide (ch.toNat ≤ 57)

/-- Digit-run evaluation inside `strconv.Atoi`: `none` on the first
non-digit (a parse error). -/
def digitsValAux : Nat → List Char → Option Nat
  | acc, [] => some acc
  | acc, ch :: rest =>
    if isDigitB ch then digitsValAux (acc * 10 + (ch.toNat - 48)) rest
    else none

/-- Go `strconv.Atoi` as `matchPauseVersion` uses it: the parsed value,
with the error case collapsed to 0 (the code discards the error, so `v`
stays 0). -/
def goAtoiOrZero (cs : List Char) : Int :=
  match cs with
  | [] => 0
  | c :: rest =>
    if c = '+' then
      match digitsValAux 0 rest with
      | some n => (n : Int)
      | none => 0
    else if c = '-' then
      match digitsValAux 0 rest with
      | some n => -(n : Int)
      | none => 0
    else
      match digitsValAux 0 (c :: rest) with
      | some n => (n : Int)
      | none => 0

/-- `strings.ReplaceAll(s, "v", "")` followed by
`strings.ReplaceAll(s, ".", "")` (`containerd.go:234-235`): drop every `v`
and `.`. -/
def stripVC (s : String) : List Char :=
  (s.data.filter fun ch => ch != 'v').filter fun ch => ch != '.'

/-- Decimal value of a digit string (what "the first three characters
parse as an integer" denotes). -/
def decimalVal (l : List Char) : Nat :=
  l.foldl (fun acc ch => acc * 10 + (ch.toNat - 48)) 0

/-- `ContainerdRunnable.matchPauseVersion` (`containerd.go:229-243`).
`none` models the panic of `strings.Join(strings.Split(kubeVersion, "")[0:3], "")`
when the stripped string has fewer than three characters (`Split(s, "")`
lists the characters of a non-empty `s` and is empty for `s = ""`; the
`[0:3]` slice panics whenever the slice is shorter than three).  The
global pause-version table `k8sMatchPauseVersion` is not part of the
excerpt and is passed as `pauseMap` (a Go map lookup yields `""` for a
missing key, which the argument itself models). -/
def matchPauseVersion (pauseMap : String → String) (kubeVersion : String) :
    Option (String × String) :=
  if kubeVersion = "" then some ("", "k8s.gcr.io")
  else if (stripVC kubeVersion).length < 3 then none
  else
    some (pauseMap (String.mk ((stripVC kubeVersion).take 3)),
      if goAtoiOrZero ((stripVC kubeVersion).take 3) ≥ 125 then "registry.k8s.io"
      else "k8s.gcr.io")

/-- RE2 Perl class `\s`: `[\t\n\f\r ]` (what the two join-command patterns
use). -/
def goIsSpaceRE (c : Char) : Bool :=
  c == ' ' || c == '\t' || c == '\n' || c == '\x0c' || c == '\r'

/-- Go `unicode.IsSpace` over the Latin-1 range (all the characters
realistic kubeadm output contains): the ASCII whitespace characters plus
NEL and NBSP. -/
def goUnicodeIsSpace (c : Char) : Bool :=
  c == ' ' || c == '\t' || c == '\n' || c == '\x0b' || c == '\x0c' || c == '\r' ||
    c == '\x85' || c == '\xa0'

/-- `strings.ReplaceAll(input, "\\\n", " ")` (`k8s/utils.go:45`):
left-to-right, non-overlapping. -/
def replBackslashNL : List Char → List Char
  | [] => []
  | '\\' :: '\n' :: rest => ' ' :: replBackslashNL rest
  | c :: rest => c :: replBackslashNL rest

/-- Go `strings.Fields`: the maximal runs of non-whitespace characters. -/
def goFields (cs : List Char) : List (List Char) :=
  let p := cs.foldr
    (fun c acc =>
      if goUnicodeIsSpace c then (([] : List Char), if acc.1.isEmpty then acc.2 else acc.1 :: acc.2)
      else (c :: acc.1, acc.2))
    (([], []) : List Char × List (List Char))
  if p.1.isEmpty then p.2 else p.1 :: p.2

/-- `sanitizeCommand` (`k8s/utils.go:44-47`): splice continuation lines,
then collapse all whitespace to single spaces via `Fields` + `Join`. -/
def sanitizeCommand (cs : List Char) : List Char :=
  List.intercalate [' '] (goFields (replBackslashNL cs))

/-- Items of the two join-command regular expressions: a non-empty literal,
the lazy gap `.*?` (any character but newline, shortest first), and the
greedy classes `\s+` (`ws = true`) / `\S+` (`ws = false`, longest first) —
exactly the constructs `masterPattern` and `workerPattern` use
(`k8s/utils.go:53-54`). -/
inductive RItem where
  | lit (c : Char) (s : List Char)
  | dotLazy
  | clsPlus (ws : Bool)
deriving DecidableEq, Repr

/-- Does the pattern list start the character list? -/
def startsWithChars : List Char → List Char → Bool
  | [], _ => true
  | _ :: _, [] => false
  | p :: ps, c :: cs => p == c && startsWithChars ps cs

/-- `strings.Contains` / substring occurrence. -/
def containsSeq (pat : List Char) : List Char → Bool
  | [] => pat.isEmpty
  | c :: cs => startsWithChars pat (c :: cs) || containsSeq pat cs

/-- Membership of one character in `\s` (`ws = true`) or `\S`. -/
def clsMem (ws : Bool) (c : Char) : Bool :=
  if ws then goIsSpaceRE c else !goIsSpaceRE c

/-- All extents (consumed lengths) with which the item sequence matches a
prefix of `cs`, in Perl-backtracking priority order: Go `regexp` documents
leftmost-first ("the match a backtracking search would have found first")
semantics, so the head of this list is the extent the engine reports.
`dotLazy` prefers the shortest gap, `clsPlus` the longest run (at least
one); fuel only bounds the recursion depth, and every call either shortens
`cs` or shortens the item list, so `cs.length + items.length + 1` is never
exhausted (an exhausted-fuel call returns no extents). -/
def runAll : Nat → List RItem → List Char → List Nat
  | 0, _, _ => []
  | _ + 1, [], _ => [0]
  | fuel + 1, .lit c s :: rest, cs =>
    if startsWithChars (c :: s) cs then
      (runAll fuel rest (cs.drop (s.length + 1))).map (· + (s.length + 1))
    else []
  | fuel + 1, .dotLazy :: rest, cs =>
    runAll fuel rest cs ++
      (match cs with
       | [] => []
       | ch :: cs2 =>
         if ch = '\n' then []
         else (runAll fuel (.dotLazy :: rest) cs2).map (· + 1))
  | fuel + 1, .clsPlus ws :: rest, cs =>
    ((List.range (cs.takeWhile (clsMem ws)).length).map
        (fun t => (cs.takeWhile (clsMem ws)).length - t)).flatMap
      (fun j => (runAll fuel rest (cs.drop j)).map (· + j))

/-- `runAll` with enough fuel for the whole search. -/
def runAllTop (items : List RItem) (cs : List Char) : List Nat :=
  runAll (cs.length + items.length + 1) items cs

/-- Leftmost match: the first start position whose first-priority extent
exists, as `(start, length)`. -/
def findFrom (items : List RItem) : List Char → Option (Nat × Nat)
  | [] => ((runAllTop items []).head?).map fun n => (0, n)
  | c :: rest =>
    match (runAllTop items (c :: rest)).head? with
    | some n => some (0, n)
    | none => (findFrom items rest).map fun p => (p.1 + 1, p.2)

/-- Go `FindAllString(s, -1)`: successive non-overlapping leftmost-first
matches; after a match the search resumes at its end (one character
further for an empty match).  Every iteration consumes at least one
character, so fuel `cs.length + 1` is never exhausted. -/
def findAllAux (items : List RItem) : Nat → List Char → List (List Char)
  | 0, _ => []
  | fuel + 1, cs =>
    match findFrom items cs with
    | none => []
    | some (i, n) => ((cs.drop i).take n) :: findAllAux items fuel (cs.drop (i + max n 1))

/-- All matches of the pattern in the text, in order. -/
def findAllGo (items : List RItem) (cs : List Char) : List (List Char) :=
  findAllAux items (cs.length + 1) cs

/-- `masterPattern`:
`kubeadm join.*?--control-plane.*?--certificate-key\s+\S+`
(`k8s/utils.go:53`). -/
def masterRE : List RItem :=
  [.lit 'k' "ubeadm join".data, .dotLazy, .lit '-' "-control-plane".data, .dotLazy,
   .lit '-' "-certificate-key".data, .clsPlus true, .clsPlus false]

/-- `workerPattern`:
`kubeadm join.*?--token\s+\S+.*?--discovery-token-ca-cert-hash\s+\S+`
(`k8s/utils.go:54`). -/
def workerRE : List RItem :=
  [.lit 'k' "ubeadm join".data, .dotLazy, .lit '-' "-token".data, .clsPlus true,
   .clsPlus false, .dotLazy, .lit '-' "-discovery-token-ca-cert-hash".data,
   .clsPlus true, .clsPlus false]

/-- `extractJoinCommands` (`k8s/utils.go:50-74`): sanitize, then the master
command is the first master-pattern match (empty when none), and the worker
command is the first worker-pattern match that does not contain
`--control-plane` (empty when none). -/
def extractJoinCommands (output : List Char) : List Char × List Char :=
  (((findAllGo masterRE (sanitizeCommand output)).headD []),
   ((findAllGo workerRE (sanitizeCommand output)).find?
      fun m => !containsSeq ("--control-plane".data) m).getD [])

/-- The literal chunks of an item sequence (used to state that every match
contains its pattern's literals). -/
def litsOf : List RItem → List (List Char)
  | [] => []
  | .lit c s :: rest => (c :: s) :: litsOf rest
  | _ :: rest => litsOf rest

/-- The raw output used below: a control-plane join line followed by a
flagless worker join line. -/
def overlapOutput : List Char :=
  "kubeadm join --control-plane kubeadm join --token a --discovery-token-ca-cert-hash b".data

/-- Its flagless worker-join substring. -/
def overlapWorkerLine : List Char :=
  "kubeadm join --token a --discovery-token-ca-cert-hash b".data

-- ===== Theorems =====

theorem charListLtB_trans : ∀ {a b c : List Char},
    charListLtB a b = true → charListLtB b c = true → charListLtB a c = true
  | [], b, c, hab, hbc => by
    cases b with
    | nil => simp [charListLtB] at hab
    | cons y bs =>
      cases c with
      | nil => simp [charListLtB] at hbc
      | cons z cs => simp [charListLtB]
  | x :: as, b, c, hab, hbc => by
    cases b with
    | nil => simp [charListLtB] at hab
    | cons y bs =>
      cases c with
      | nil => simp [charListLtB] at hbc
      | cons z cs =>
        simp only [charListLtB, Bool.or_eq_true, Bool.and_eq_true, decide_eq_true_eq,
          beq_iff_eq] at hab hbc ⊢
        rcases hab with h1 | ⟨he1, h1⟩
        · rcases hbc with h2 | ⟨he2, h2⟩
          · exact Or.inl (lt_trans h1 h2)
          · exact Or.inl (he2 ▸ h1)
        · rcases hbc with h2 | ⟨he2, h2⟩
          · exact Or.inl (he1 ▸ h2)
          · exact Or.inr ⟨he1.trans he2, charListLtB_trans h1 h2⟩

theorem charListLtB_irrefl : ∀ a : List Char, charListLtB a a = false
  | [] => rfl
  | x :: as => by
    simp [charListLtB, charListLtB_irrefl as, lt_irrefl]

theorem charListLtB_total (a b : List Char) :
    charListLtB a b = true ∨ a = b ∨ charListLtB b a = true := by
  induction a generalizing b with
  | nil =>
    cases b with
    | nil => exact Or.inr (Or.inl rfl)
    | cons y bs => exact Or.inl rfl
  | cons x as ih =>
    cases b with
    | nil => exact Or.inr (Or.inr rfl)
    | cons y bs =>
      rcases lt_trichotomy x y with hxy | hxy | hxy
      · exact Or.inl (by simp [charListLtB, hxy])
      · rcases ih bs with h | h | h
        · exact Or.inl (by simp [charListLtB, hxy, h])
        · exact Or.inr (Or.inl (by rw [hxy, h]))
        · exact Or.inr (Or.inr (by simp [charListLtB, hxy, h]))
      · exact Or.inr (Or.inr (by simp [charListLtB, hxy]))

theorem strLtB_trans {a b c : String} (h1 : strLtB a b = true) (h2 : strLtB b c = true) :
    strLtB a c = true :=
  charListLtB_trans h1 h2

theorem strLtB_irrefl (a : String) : strLtB a a = false :=
  charListLtB_irrefl a.data

theorem strLtB_total (a b : String) :
    strLtB a b = true ∨ a.data = b.data ∨ strLtB b a = true :=
  charListLtB_total a.data b.data

theorem strLtB_ne {a b : String} (h : strLtB a b = true) : a ≠ b := by
  intro he
  rw [he, strLtB_irrefl] at h
  exact Bool.false_ne_true h

theorem goCompare_eq_gt_iff {a b : String} :
    goCompare a b = .gt ↔ (strLtB a b = false ∧ a.data ≠ b.data) := by
  unfold goCompare
  cases h1 : strLtB a b <;> cases h2 : a.data == b.data <;>
    simp_all [beq_iff_eq]

theorem goCompare_eq_eq_iff {a b : String} :
    goCompare a b = .eq ↔ a.data = b.data := by
  unfold goCompare
  by_cases h2 : a.data = b.data
  · have h1 : strLtB a b = false := by
      unfold strLtB
      rw [h2]
      exact charListLtB_irrefl b.data
    simp [h1, h2]
  · cases h1 : strLtB a b <;> simp_all [beq_iff_eq]

theorem goCompare_eq_lt_iff {a b : String} :
    goCompare a b = .lt ↔ strLtB a b = true := by
  unfold goCompare
  cases h1 : strLtB a b <;> cases h2 : a.data == b.data <;> simp_all

theorem sortFindLoop_spec (cmp : Nat → Ordering) (n : Nat)
    (mono : ∀ a b, a ≤ b → cmp b = .gt → cmp a = .gt) :
    ∀ fuel i j, i ≤ j → j ≤ n → j - i ≤ fuel →
      (∀ k, k < i → cmp k = .gt) → (j = n ∨ cmp j ≠ .gt) →
      i ≤ sortFindLoop cmp fuel i j ∧ sortFindLoop cmp fuel i j ≤ j ∧
      (∀ k, k < sortFindLoop cmp fuel i j → cmp k = .gt) ∧
      (sortFindLoop cmp fuel i j = n ∨ cmp (sortFindLoop cmp fuel i j) ≠ .gt) := by
  intro fuel
  induction fuel with
  | zero =>
    intro i j hij hjn hfuel hlo hhi
    have : i = j := by omega
    subst this
    simpa [sortFindLoop] using ⟨hlo, hhi⟩
  | succ fuel ih =>
    intro i j hij hjn hfuel hlo hhi
    by_cases hlt : i < j
    · have hm1 : i ≤ (i + j) / 2 := by omega
      have hm2 : (i + j) / 2 < j := by omega
      by_cases hc : cmp ((i + j) / 2) = .gt
      · have h4 := ih ((i + j) / 2 + 1) j (by omega) hjn (by omega)
          (fun k hk => mono k ((i + j) / 2) (by omega) hc) hhi
        simp only [sortFindLoop, if_pos hlt, if_pos hc]
        have h41 := h4.1
        exact ⟨by omega, h4.2.1, h4.2.2.1, h4.2.2.2⟩
      · have h4 := ih i ((i + j) / 2) (by omega) (by omega) (by omega) hlo (Or.inr hc)
        simp only [sortFindLoop, if_pos hlt, if_neg hc]
        have h42 := h4.2.1
        exact ⟨h4.1, by omega, h4.2.2.1, h4.2.2.2⟩
    · have : i = j := by omega
      subst this
      simp only [sortFindLoop, if_neg hlt]
      exact ⟨le_refl i, le_refl i, hlo, hhi⟩

theorem memTakeIdx {l : List α} {n : Nat} {x : α} (h : x ∈ l.take n) :
    ∃ k, ∃ hk : k < l.length, k < n ∧ l.get ⟨k, hk⟩ = x := by
  induction l generalizing n with
  | nil => simp at h
  | cons a l ih =>
    cases n with
    | zero => simp at h
    | succ n =>
      rw [List.take_succ_cons, List.mem_cons] at h
      rcases h with rfl | h
      · exact ⟨0, by simp, by omega, rfl⟩
      · obtain ⟨k, hk, hkn, rfl⟩ := ih h
        exact ⟨k + 1, by simpa using Nat.succ_lt_succ hk, by omega, rfl⟩

theorem memDropIdx {l : List α} {n : Nat} {x : α} (h : x ∈ l.drop n) :
    ∃ k, ∃ hk : k < l.length, n ≤ k ∧ l.get ⟨k, hk⟩ = x := by
  induction l generalizing n with
  | nil => simp at h
  | cons a l ih =>
    cases n with
    | zero =>
      rw [List.drop_zero] at h
      obtain ⟨⟨k, hk⟩, hget⟩ := List.mem_iff_get.mp h
      exact ⟨k, hk, Nat.zero_le k, hget⟩
    | succ n =>
      rw [List.drop_succ_cons] at h
      obtain ⟨k, hk, hkn, rfl⟩ := ih h
      exact ⟨k + 1, by simpa using Nat.succ_lt_succ hk, by omega, rfl⟩

theorem pairwise_insertAt {α : Type} {R : α → α → Prop} {s : List α} {r : α} {idx : Nat}
    (hs : s.Pairwise R)
    (hlo : ∀ (k : Nat) (hk : k < s.length), k < idx → R (s.get ⟨k, hk⟩) r)
    (hhi : ∀ (k : Nat) (hk : k < s.length), idx ≤ k → R r (s.get ⟨k, hk⟩)) :
    (s.take idx ++ r :: s.drop idx).Pairwise R := by
  rw [List.pairwise_append]
  refine ⟨hs.take, ?_, ?_⟩
  · rw [List.pairwise_cons]
    refine ⟨?_, hs.drop⟩
    intro y hy
    obtain ⟨k, hk, hkn, rfl⟩ := memDropIdx hy
    exact hhi k hk hkn
  · intro x hx y hy
    obtain ⟨k, hk, hkidx, rfl⟩ := memTakeIdx hx
    rcases List.mem_cons.mp hy with rfl | hy2
    · exact hlo k hk hkidx
    · obtain ⟨m, hm, hmidx, rfl⟩ := memDropIdx hy2
      have hkm : k < m := lt_of_lt_of_le hkidx hmidx
      exact List.Sorted.rel_get_of_lt hs (Fin.mk_lt_mk.mpr hkm)

theorem getD_eq_get {s : List α} {r : α} (k : Nat) (hk : k < s.length) :
    s.getD k r = s.get ⟨k, hk⟩ := by
  simp [List.getD_eq_getElem?_getD, List.getElem?_eq_getElem hk]

theorem getD_eq_default {s : List α} {r : α} {k : Nat} (hk : s.length ≤ k) :
    s.getD k r = r := by
  simp [List.getD_eq_getElem?_getD, List.getElem?_eq_none hk]

theorem insertCmp_apply (key : α → String) (s : List α) (r : α) (i : Nat) :
    insertCmp key s r i = goCompare (key r) (key (s.getD i r)) := rfl

theorem insertUniqueBy_pairwise {α : Type} (key : α → String) {s : List α} (r : α)
    (hs : s.Pairwise fun x y => strLtB (key x) (key y) = true) :
    (insertUniqueBy key s r).Pairwise fun x y => strLtB (key x) (key y) = true := by
  have mono : ∀ a b, a ≤ b → insertCmp key s r b = .gt → insertCmp key s r a = .gt := by
    intro a b hab hgt
    rw [insertCmp_apply] at hgt
    rw [insertCmp_apply]
    by_cases hbn : b < s.length
    · have han : a < s.length := lt_of_le_of_lt hab hbn
      rw [getD_eq_get b hbn] at hgt
      rw [getD_eq_get a han]
      rcases Nat.eq_or_lt_of_le hab with rfl | hab2
      · exact hgt
      · have hrel : strLtB (key (s.get ⟨a, han⟩)) (key (s.get ⟨b, hbn⟩)) = true :=
          List.Sorted.rel_get_of_lt hs (Fin.mk_lt_mk.mpr hab2)
        rw [goCompare_eq_gt_iff] at hgt ⊢
        obtain ⟨hgf, hgne⟩ := hgt
        constructor
        · cases hcc : strLtB (key r) (key (s.get ⟨a, han⟩)) with
          | false => rfl
          | true => exact absurd ((strLtB_trans hcc hrel).symm.trans hgf) (by simp)
        · intro hd
          have hbt : strLtB (key r) (key (s.get ⟨b, hbn⟩)) = true := by
            unfold strLtB at hrel ⊢
            rw [hd]
            exact hrel
          exact absurd (hbt.symm.trans hgf) (by simp)
    · rw [getD_eq_default (by omega)] at hgt
      rw [goCompare_eq_gt_iff] at hgt
      exact absurd rfl hgt.2
  have hspec := sortFindLoop_spec (insertCmp key s r) s.length mono
    (s.length + 1) 0 s.length (Nat.zero_le _) (le_refl _) (by omega)
    (fun k hk => absurd hk (Nat.not_lt_zero k)) (Or.inl rfl)
  unfold insertUniqueBy sortFind
  generalize hg :
    sortFindLoop (insertCmp key s r) (s.length + 1) 0 s.length = idx at hspec ⊢
  obtain ⟨-, hle, hbylt, hend⟩ := hspec
  by_cases hfound :
      (decide (idx < s.length) && decide (insertCmp key s r idx = Ordering.eq)) = true
  · rw [if_pos hfound]
    exact hs
  · rw [if_neg (by simpa using hfound)]
    show (s.take idx ++ r :: s.drop idx).Pairwise fun x y => strLtB (key x) (key y) = true
    apply pairwise_insertAt hs
    · intro k hk hkidx
      have hgt : goCompare (key r) (key (s.getD k r)) = Ordering.gt := hbylt k hkidx
      rw [getD_eq_get k hk, goCompare_eq_gt_iff] at hgt
      rcases strLtB_total (key r) (key (s.get ⟨k, hk⟩)) with h | h | h
      · exact absurd (h.symm.trans hgt.1) (by simp)
      · exact absurd h hgt.2
      · exact h
    · intro k hk hkidx
      have hidxn : idx < s.length := lt_of_le_of_lt hkidx hk
      have hne_gt : insertCmp key s r idx ≠ Ordering.gt := by
        rcases hend with h | h
        · omega
        · exact h
      have hne_eq : insertCmp key s r idx ≠ Ordering.eq := by
        intro he
        refine hfound ?_
        rw [he, decide_eq_true hidxn, Bool.true_and]
        rfl
      have hlt : insertCmp key s r idx = Ordering.lt := by
        cases hgc : insertCmp key s r idx <;> simp_all
      rw [insertCmp_apply, getD_eq_get idx hidxn, goCompare_eq_lt_iff] at hlt
      rcases Nat.eq_or_lt_of_le hkidx with rfl | hlt2
      · exact hlt
      · have hrel : strLtB (key (s.get ⟨idx, hidxn⟩)) (key (s.get ⟨k, hk⟩)) = true :=
          List.Sorted.rel_get_of_lt hs (Fin.mk_lt_mk.mpr hlt2)
        exact strLtB_trans hlt hrel

theorem foldl_insertUniqueBy_pairwise {α : Type} (key : α → String) (items : List α)
    {s : List α} (hs : s.Pairwise fun x y => strLtB (key x) (key y) = true) :
    (items.foldl (insertUniqueBy key) s).Pairwise fun x y => strLtB (key x) (key y) = true := by
  induction items generalizing s with
  | nil => exact hs
  | cons a items ih =>
    rw [List.foldl_cons]
    exact ih (insertUniqueBy_pairwise key a hs)

theorem strDataEq {a b : String} (h : a.data = b.data) : a = b := by
  cases a
  cases b
  exact congrArg String.mk h

theorem mem_insertUniqueBy_elim {key : α → String} {s : List α} {r x : α}
    (h : x ∈ insertUniqueBy key s r) : x ∈ s ∨ x = r := by
  unfold insertUniqueBy at h
  split at h
  · exact Or.inl h
  · rcases List.mem_append.mp h with h2 | h2
    · exact Or.inl (List.mem_of_mem_take h2)
    · rcases List.mem_cons.mp h2 with rfl | h3
      · exact Or.inr rfl
      · exact Or.inl (List.mem_of_mem_drop h3)

theorem mem_insertUniqueBy_of_mem {key : α → String} {s : List α} {r x : α}
    (h : x ∈ s) : x ∈ insertUniqueBy key s r := by
  unfold insertUniqueBy
  split
  · exact h
  · rcases List.mem_append.mp ((List.take_append_drop _ s) ▸ h) with h2 | h2
    · exact List.mem_append.mpr (Or.inl h2)
    · exact List.mem_append.mpr (Or.inr (List.mem_cons.mpr (Or.inr h2)))

theorem key_mem_insertUniqueBy (key : α → String) (s : List α) (r : α) :
    key r ∈ (insertUniqueBy key s r).map key := by
  unfold insertUniqueBy sortFind
  split
  · next hfound =>
    simp only [Bool.and_eq_true, decide_eq_true_eq] at hfound
    obtain ⟨hidxn, heq⟩ := hfound
    rw [insertCmp_apply, goCompare_eq_eq_iff] at heq
    have hkey := strDataEq heq
    rw [hkey, getD_eq_get _ hidxn]
    exact List.mem_map_of_mem key (s.get_mem _ _)
  · refine List.mem_map_of_mem key ?_
    exact List.mem_append.mpr (Or.inr (List.mem_cons.mpr (Or.inl rfl)))

theorem key_mem_insertUniqueBy_of_mem {key : α → String} {s : List α} {r : α} {k : String}
    (h : k ∈ s.map key) : k ∈ (insertUniqueBy key s r).map key := by
  obtain ⟨x, hx, rfl⟩ := List.mem_map.mp h
  exact List.mem_map_of_mem key (mem_insertUniqueBy_of_mem hx)

theorem mem_foldl_insertUniqueBy_elim {key : α → String} {items s : List α} {x : α}
    (h : x ∈ items.foldl (insertUniqueBy key) s) : x ∈ s ∨ x ∈ items := by
  induction items generalizing s with
  | nil => exact Or.inl h
  | cons a items ih =>
    rw [List.foldl_cons] at h
    rcases ih h with h2 | h2
    · rcases mem_insertUniqueBy_elim h2 with h3 | rfl
      · exact Or.inl h3
      · exact Or.inr (List.mem_cons_self _ _)
    · exact Or.inr (List.mem_cons_of_mem _ h2)

theorem key_mem_foldl_insertUniqueBy_of_mem {key : α → String} {items s : List α} {k : String}
    (h : k ∈ s.map key) : k ∈ (items.foldl (insertUniqueBy key) s).map key := by
  induction items generalizing s with
  | nil => exact h
  | cons a items ih =>
    rw [List.foldl_cons]
    exact ih (key_mem_insertUniqueBy_of_mem h)

theorem key_mem_foldl_insertUniqueBy {key : α → String} {items s : List α} {r : α}
    (hr : r ∈ items) : key r ∈ (items.foldl (insertUniqueBy key) s).map key := by
  induction items generalizing s with
  | nil => simp at hr
  | cons a items ih =>
    rw [List.foldl_cons]
    rcases List.mem_cons.mp hr with rfl | h2
    · exact key_mem_foldl_insertUniqueBy_of_mem (key_mem_insertUniqueBy key s r)
    · exact ih h2

/-- C1, counterexample: the claim quantifies over *any* starting list, but
`appendUniqueRegistry` relies on binary search and only maintains order; an
unsorted starting list with an empty item sequence is returned unchanged and
is not sorted ascending by identity key. -/
theorem appendUniqueRegistry_unsorted_start_counterexample :
    appendUniqueRegistry
        [⟨"https", "b", false, "", none⟩, ⟨"http", "a", false, "", none⟩] [] =
      [⟨"https", "b", false, "", none⟩, ⟨"http", "a", false, "", none⟩] ∧
    ¬ KeySorted (appendUniqueRegistry
        [⟨"https", "b", false, "", none⟩, ⟨"http", "a", false, "", none⟩] []) := by
  exact ⟨rfl, by decide⟩

/-- C1 (amended): for any starting list that is already sorted strictly
ascending by identity key `Scheme+Host` (equivalently: sorted with no
duplicate keys, the invariant every caller maintains) and any sequence of
inserted items, `appendUniqueRegistry` returns a list that is sorted
ascending by identity key and in which no two entries share an identity
key. -/
theorem appendUniqueRegistry_keySorted (s items : List RegistrySpec) (hs : KeySorted s) :
    KeySorted (appendUniqueRegistry s items) ∧
    (appendUniqueRegistry s items).Pairwise fun x y => x.key ≠ y.key := by
  have h := foldl_insertUniqueBy_pairwise RegistrySpec.key items (s := s) hs
  exact ⟨h, h.imp fun hxy => strLtB_ne hxy⟩

/-- C1, witness: the amended theorem applied to the empty (trivially sorted)
start and a concrete unsorted item sequence. -/
theorem appendUniqueRegistry_keySorted_witness :
    KeySorted ([] : List RegistrySpec) ∧
    (KeySorted (appendUniqueRegistry []
        [⟨"https", "b", false, "", none⟩, ⟨"http", "a", false, "", none⟩]) ∧
      (appendUniqueRegistry []
        [⟨"https", "b", false, "", none⟩, ⟨"http", "a", false, "", none⟩]).Pairwise
        fun x y => x.key ≠ y.key) :=
  ⟨by decide, appendUniqueRegistry_keySorted []
    [⟨"https", "b", false, "", none⟩, ⟨"http", "a", false, "", none⟩] (by decide)⟩

theorem registriesEqual_iff_eq : ∀ a b : List RegistrySpec, registriesEqual a b = true ↔ a = b := by
  intro a
  induction a with
  | nil =>
    intro b
    cases b with
    | nil => simp [registriesEqual]
    | cons y ys => simp [registriesEqual]
  | cons x xs ih =>
    intro b
    cases b with
    | nil => simp [registriesEqual]
    | cons y ys =>
      by_cases hlen : xs.length = ys.length
      · have h1 : registriesEqual (x :: xs) (y :: ys) = ((x == y) && registriesEqual xs ys) := by
          simp [registriesEqual, hlen]
        rw [h1, Bool.and_eq_true, beq_iff_eq, ih ys]
        simp
      · have h1 : registriesEqual (x :: xs) (y :: ys) = false := by
          simp only [registriesEqual, List.length_cons, ne_eq]
          rw [if_pos (by omega)]
        rw [h1]
        simp only [Bool.false_eq_true, false_iff]
        intro h
        apply hlen
        have := congrArg List.length h
        simpa using this

theorem ne_iff_length_or_elem {a b : List RegistrySpec} :
    a ≠ b ↔ (a.length ≠ b.length ∨ ∃ i, a.get? i ≠ b.get? i) := by
  constructor
  · intro h
    by_cases hlen : a.length = b.length
    · refine Or.inr ?_
      by_contra hall
      push_neg at hall
      exact h (List.ext_get? hall)
    · exact Or.inl hlen
  · rintro (h | ⟨i, h⟩) he
    · exact h (he ▸ rfl)
    · exact h (he ▸ rfl)

/-- C2: the diff check `registriesEqual` (negated to decide whether an
update is needed) reports inequality exactly when the two sequences differ
in length or in some element; it is reflexive, and when it reports equal,
`getCRIRegistriesStep` returns no step and no error for every outcome of
node discovery. -/
theorem registriesEqual_diff_contract :
    (∀ a b : List RegistrySpec,
      registriesEqual a b = false ↔ (a.length ≠ b.length ∨ ∃ i, a.get? i ≠ b.get? i)) ∧
    (∀ a : List RegistrySpec, registriesEqual a a = true) ∧
    (∀ (nodesResult : Except String (List Node)) (recorded desired : List RegistrySpec),
      registriesEqual recorded desired = true →
        getCRIRegistriesStep nodesResult recorded desired = .ok none) := by
  refine ⟨?_, ?_, ?_⟩
  · intro a b
    rw [← ne_iff_length_or_elem]
    rw [Bool.eq_false_iff]
    constructor
    · intro h he
      exact h ((registriesEqual_iff_eq a b).mpr he)
    · intro h hb
      exact h ((registriesEqual_iff_eq a b).mp hb)
  · intro a
    exact (registriesEqual_iff_eq a a).mpr rfl
  · intro nodesResult recorded desired h
    simp [getCRIRegistriesStep, h]

/-- C2, witness: the contract at concrete inputs — a hypothesis-style
instantiation of the third conjunct at a one-element list. -/
theorem registriesEqual_diff_contract_witness :
    registriesEqual [⟨"http", "a", false, "", none⟩] [⟨"http", "a", false, "", none⟩] = true ∧
    getCRIRegistriesStep (.ok [⟨"n1"⟩]) [⟨"http", "a", false, "", none⟩]
      [⟨"http", "a", false, "", none⟩] = .ok none :=
  ⟨by decide, registriesEqual_diff_contract.2.2 (.ok [⟨"n1"⟩]) _ _ (by decide)⟩

/-- C6: the claim says the update step is constructed without panic for
every node list, but evaluating the code at a cluster whose recorded and
desired registries differ and whose node discovery returns a single node
shows the construction panics: `wrapNodes` is created with length zero
(`make([]*v1.Node, 0, len(nodes))`) and then written through index
`wrapNodes[i]`. -/
theorem getCRIRegistriesStep_panics_on_nonempty_nodes :
    getCRIRegistriesStep (.ok [⟨"node-1"⟩]) []
      [⟨"http", "reg.example.com", false, "", none⟩] = .error (.panic "index out of range") := by
  rfl

theorem foldl_expand_hosts : ∀ (hosts : List String) (s : List RegistrySpec),
    hosts.foldl (fun acc host => appendUniqueRegistry acc [httpSpec host, httpsSpec host]) s =
      (hosts.flatMap fun h => [httpSpec h, httpsSpec h]).foldl
        (insertUniqueBy RegistrySpec.key) s
  | [], s => rfl
  | h :: rest, s => by
    rw [List.foldl_cons, List.flatMap_cons, foldl_expand_hosts rest]
    rfl

theorem regsAfterInsecure_eq_foldl (c : Cluster) :
    regsAfterInsecure c =
      ((insecureAfterAddons c).flatMap fun h => [httpSpec h, httpsSpec h]).foldl
        (insertUniqueBy RegistrySpec.key) [] :=
  foldl_expand_hosts (insecureAfterAddons c) []

theorem explicitLoop_ok (lookup : String → LookupResult) :
    ∀ (entries : List CRIRegistry) (regs0 : List RegistrySpec) (valid0 : List CRIRegistry),
      (∀ e ∈ entries, ¬ entryHardErr lookup e) →
      explicitLoop lookup entries regs0 valid0 =
        .ok ((explicitSpecs lookup entries).foldl (insertUniqueBy RegistrySpec.key) regs0,
          valid0 ++ validOf lookup entries)
  | [], regs0, valid0, _ => by simp [explicitLoop, explicitSpecs, validOf]
  | e :: rest, regs0, valid0, h => by
    have hrest : ∀ x ∈ rest, ¬ entryHardErr lookup x := fun x hx => h x (List.mem_cons_of_mem _ hx)
    cases he : e.registryRef with
    | none =>
      rw [show explicitLoop lookup (e :: rest) regs0 valid0 = explicitLoop lookup rest
          (appendUniqueRegistry regs0 [httpSpec e.insecureRegistry, httpsSpec e.insecureRegistry])
          (valid0 ++ [{ e with registryRef := none }]) by simp [explicitLoop, he]]
      rw [explicitLoop_ok lookup rest _ _ hrest]
      simp [explicitSpecs, validOf, he, appendUniqueRegistry]
    | some ref =>
      by_cases hre : ref = ""
      · subst hre
        rw [show explicitLoop lookup (e :: rest) regs0 valid0 = explicitLoop lookup rest
            (appendUniqueRegistry regs0 [httpSpec e.insecureRegistry, httpsSpec e.insecureRegistry])
            (valid0 ++ [{ e with registryRef := none }]) by simp [explicitLoop, he]]
        rw [explicitLoop_ok lookup rest _ _ hrest]
        simp [explicitSpecs, validOf, he, appendUniqueRegistry]
      · cases hl : lookup ref with
        | found spec =>
          rw [show explicitLoop lookup (e :: rest) regs0 valid0 = explicitLoop lookup rest
              (appendUniqueRegistry regs0 [spec]) (valid0 ++ [e]) by
            simp [explicitLoop, he, hre, hl]]
          rw [explicitLoop_ok lookup rest _ _ hrest]
          simp [explicitSpecs, validOf, he, hre, hl, appendUniqueRegistry]
        | notFound =>
          rw [show explicitLoop lookup (e :: rest) regs0 valid0 =
              explicitLoop lookup rest regs0 valid0 by simp [explicitLoop, he, hre, hl]]
          rw [explicitLoop_ok lookup rest _ _ hrest]
          simp [explicitSpecs, validOf, he, hre, hl]
        | otherError msg =>
          exact absurd ⟨ref, msg, he, hre, hl⟩ (h e (List.mem_cons_self _ _))

theorem mem_validOf_ref (lookup : String → LookupResult) :
    ∀ (entries : List CRIRegistry) (e : CRIRegistry) (ref : String),
      e ∈ validOf lookup entries → e.registryRef = some ref → lookup ref ≠ .notFound
  | [], e, ref, hmem, _ => by simp [validOf] at hmem
  | a :: rest, e, ref, hmem, href => by
    cases ha : a.registryRef with
    | none =>
      rw [show validOf lookup (a :: rest) = { a with registryRef := none } :: validOf lookup rest
        by simp [validOf, ha]] at hmem
      rcases List.mem_cons.mp hmem with rfl | h2
      · simp at href
      · exact mem_validOf_ref lookup rest e ref h2 href
    | some r0 =>
      by_cases hre : r0 = ""
      · subst hre
        rw [show validOf lookup (a :: rest) = { a with registryRef := none } :: validOf lookup rest
          by simp [validOf, ha]] at hmem
        rcases List.mem_cons.mp hmem with rfl | h2
        · simp at href
        · exact mem_validOf_ref lookup rest e ref h2 href
      · cases hl : lookup r0 with
        | found spec =>
          rw [show validOf lookup (a :: rest) = a :: validOf lookup rest
            by simp [validOf, ha, hre, hl]] at hmem
          rcases List.mem_cons.mp hmem with rfl | h2
          · rw [ha] at href
            obtain rfl : r0 = ref := by simpa using href
            rw [hl]
            simp
          · exact mem_validOf_ref lookup rest e ref h2 href
        | notFound =>
          rw [show validOf lookup (a :: rest) = validOf lookup rest
            by simp [validOf, ha, hre, hl]] at hmem
          exact mem_validOf_ref lookup rest e ref hmem href
        | otherError msg =>
          rw [show validOf lookup (a :: rest) = [] by simp [validOf, ha, hre, hl]] at hmem
          simp at hmem

theorem explicitLoop_error (lookup : String → LookupResult) :
    ∀ (entries : List CRIRegistry) (regs0 : List RegistrySpec) (valid0 : List CRIRegistry),
      (∃ e ∈ entries, entryHardErr lookup e) →
      ∃ msg, explicitLoop lookup entries regs0 valid0 = .error msg
  | [], _, _, h => by simp at h
  | a :: rest, regs0, valid0, h => by
    obtain ⟨e, hmem, ref, msg, href, hrne, hl⟩ := h
    cases ha : a.registryRef with
    | none =>
      have hr : e ∈ rest := by
        rcases List.mem_cons.mp hmem with rfl | h2
        · rw [ha] at href
          cases href
        · exact h2
      obtain ⟨m, hm⟩ := explicitLoop_error lookup rest
        (appendUniqueRegistry regs0 [httpSpec a.insecureRegistry, httpsSpec a.insecureRegistry])
        (valid0 ++ [{ a with registryRef := none }]) ⟨e, hr, ref, msg, href, hrne, hl⟩
      refine ⟨m, ?_⟩
      have hstep : explicitLoop lookup (a :: rest) regs0 valid0 = explicitLoop lookup rest
          (appendUniqueRegistry regs0 [httpSpec a.insecureRegistry, httpsSpec a.insecureRegistry])
          (valid0 ++ [{ a with registryRef := none }]) := by
        simp [explicitLoop, ha]
      rw [hstep]
      exact hm
    | some r0 =>
      by_cases hre : r0 = ""
      · subst hre
        have hr : e ∈ rest := by
          rcases List.mem_cons.mp hmem with rfl | h2
          · rw [ha] at href
            obtain rfl : ref = "" := by simpa using href.symm
            exact absurd rfl hrne
          · exact h2
        obtain ⟨m, hm⟩ := explicitLoop_error lookup rest
          (appendUniqueRegistry regs0 [httpSpec a.insecureRegistry, httpsSpec a.insecureRegistry])
          (valid0 ++ [{ a with registryRef := none }]) ⟨e, hr, ref, msg, href, hrne, hl⟩
        refine ⟨m, ?_⟩
        have hstep : explicitLoop lookup (a :: rest) regs0 valid0 = explicitLoop lookup rest
            (appendUniqueRegistry regs0 [httpSpec a.insecureRegistry, httpsSpec a.insecureRegistry])
            (valid0 ++ [{ a with registryRef := none }]) := by
          simp [explicitLoop, ha]
        rw [hstep]
        exact hm
      · cases hl0 : lookup r0 with
        | found spec =>
          have hr : e ∈ rest := by
            rcases List.mem_cons.mp hmem with rfl | h2
            · rw [ha] at href
              obtain rfl : r0 = ref := by simpa using href
              rw [hl0] at hl
              cases hl
            · exact h2
          obtain ⟨m, hm⟩ := explicitLoop_error lookup rest
            (appendUniqueRegistry regs0 [spec]) (valid0 ++ [a]) ⟨e, hr, ref, msg, href, hrne, hl⟩
          refine ⟨m, ?_⟩
          have hstep : explicitLoop lookup (a :: rest) regs0 valid0 = explicitLoop lookup rest
              (appendUniqueRegistry regs0 [spec]) (valid0 ++ [a]) := by
            simp [explicitLoop, ha, hre, hl0]
          rw [hstep]
          exact hm
        | notFound =>
          have hr : e ∈ rest := by
            rcases List.mem_cons.mp hmem with rfl | h2
            · rw [ha] at href
              obtain rfl : r0 = ref := by simpa using href
              rw [hl0] at hl
              cases hl
            · exact h2
          obtain ⟨m, hm⟩ := explicitLoop_error lookup rest regs0 valid0
            ⟨e, hr, ref, msg, href, hrne, hl⟩
          refine ⟨m, ?_⟩
          have hstep : explicitLoop lookup (a :: rest) regs0 valid0 =
              explicitLoop lookup rest regs0 valid0 := by
            simp [explicitLoop, ha, hre, hl0]
          rw [hstep]
          exact hm
        | otherError m0 =>
          exact ⟨"get registry " ++ r0 ++ ":" ++ m0, by
            simp [explicitLoop, ha, hre, hl0]⟩

theorem countP_le_one_of_pairwise_ne {l : List RegistrySpec}
    (h : l.Pairwise fun x y => x.key ≠ y.key) (p : RegistrySpec → Bool) (K : String)
    (hp : ∀ e, p e = true → e.key = K) : l.countP p ≤ 1 := by
  induction l with
  | nil => simp
  | cons x rest ih =>
    rw [List.pairwise_cons] at h
    rw [List.countP_cons]
    cases hpx : p x with
    | false => simpa using ih h.2
    | true =>
      have hzero : rest.countP p = 0 := by
        rw [List.countP_eq_zero]
        intro y hy hpy
        exact h.1 y hy ((hp x hpx).trans (hp y hpy).symm)
      simp [hzero]

theorem mem_foldl_insertUniqueBy_start {key : α → String} {items s : List α} {x : α}
    (h : x ∈ s) : x ∈ items.foldl (insertUniqueBy key) s := by
  induction items generalizing s with
  | nil => exact h
  | cons a items ih =>
    rw [List.foldl_cons]
    exact ih (mem_insertUniqueBy_of_mem h)

theorem mem_insecureAfterAddons {c : Cluster} {x : String} (h : x ∈ c.insecureRegistry) :
    x ∈ insecureAfterAddons c := by
  unfold insecureAfterAddons
  have hsorted : x ∈ sortStrings c.insecureRegistry := by
    unfold sortStrings
    exact (List.perm_insertionSort _ _).mem_iff.mpr h
  generalize sortStrings c.insecureRegistry = acc at hsorted ⊢
  induction c.addons generalizing acc with
  | nil => exact hsorted
  | cons a addons ih =>
    rw [List.foldl_cons]
    cases a with
    | none => exact ih _ hsorted
    | some m =>
      show x ∈ List.foldl _ (if m ≠ "" then insertUniqueBy id acc m else acc) addons
      by_cases hm : m ≠ ""
      · rw [if_pos hm]
        exact ih _ (mem_insertUniqueBy_of_mem hsorted)
      · rw [if_neg hm]
        exact ih _ hsorted

theorem getClusterCRIRegistries_ok_foldl (lookup : String → LookupResult) (c : Cluster)
    (hok : ∀ e ∈ c.registries, ¬ entryHardErr lookup e) :
    getClusterCRIRegistries lookup c =
      .ok ((insertedSpecs lookup c).foldl (insertUniqueBy RegistrySpec.key) [],
        validOf lookup c.registries) := by
  unfold getClusterCRIRegistries
  rw [explicitLoop_ok lookup c.registries _ _ hok, regsAfterInsecure_eq_foldl]
  simp [insertedSpecs, List.foldl_append]

/-- C3, counterexample: host `"sfoo"` appears both in the insecure-host
list and as an explicit literal insecure-host entry, yet the computed set
contains NO `http` entry for `"sfoo"` (let alone exactly one): the identity
key is the bare concatenation `Scheme+Host`, and
`"http" + "sfoo" = "https" + "foo"`, so when `"foo"` is also an insecure
host the `http` entry for `"sfoo"` is mistaken for a duplicate of the
`https` entry for `"foo"` and dropped. -/
theorem getClusterCRIRegistries_collision_counterexample :
    getClusterCRIRegistries (fun _ => .notFound) ⟨["foo", "sfoo"], [], [⟨"sfoo", none⟩]⟩ =
      .ok ([⟨"http", "foo", false, "", none⟩, ⟨"https", "foo", true, "", none⟩,
        ⟨"https", "sfoo", true, "", none⟩], [⟨"sfoo", none⟩]) ∧
    (([⟨"http", "foo", false, "", none⟩, ⟨"https", "foo", true, "", none⟩,
        ⟨"https", "sfoo", true, "", none⟩] : List RegistrySpec).countP
      fun e => e.scheme == "http" && e.host == "sfoo") = 0 :=
  ⟨by decide, by decide⟩

/-- C3 (amended): if `x` appears both in the insecure-host list and as a
literal insecure-host entry of the explicit registry list, no lookup
reports a hard error, and no other spec handed to the merge has an identity
key colliding with `"http"+x` or `"https"+x` (collisions are possible
because the key is bare string concatenation — see the counterexample),
then the computed set contains exactly one entry with scheme `http` and
host `x` and exactly one entry with scheme `https` and host `x`, the
former `⟨http, x⟩` and the latter `⟨https, x, SkipVerify⟩`. -/
theorem getClusterCRIRegistries_dedup_across_sources
    (lookup : String → LookupResult) (c : Cluster) (x : String)
    (hx1 : x ∈ c.insecureRegistry)
    (hx2 : ∃ e ∈ c.registries,
      (e.registryRef = none ∨ e.registryRef = some "") ∧ e.insecureRegistry = x)
    (hnc : ∀ r ∈ insertedSpecs lookup c,
      (r.key = "http" ++ x → r = httpSpec x) ∧ (r.key = "https" ++ x → r = httpsSpec x))
    (hok : ∀ e ∈ c.registries, ¬ entryHardErr lookup e) :
    ∃ regs, getClusterCRIRegistries lookup c = .ok (regs, validOf lookup c.registries) ∧
      httpSpec x ∈ regs ∧ httpsSpec x ∈ regs ∧
      (regs.countP fun e => e.scheme == "http" && e.host == x) = 1 ∧
      (regs.countP fun e => e.scheme == "https" && e.host == x) = 1 := by
  refine ⟨(insertedSpecs lookup c).foldl (insertUniqueBy RegistrySpec.key) [],
    getClusterCRIRegistries_ok_foldl lookup c hok, ?_⟩
  have hhttpL : httpSpec x ∈ insertedSpecs lookup c :=
    List.mem_append.mpr (Or.inl (List.mem_flatMap.mpr
      ⟨x, mem_insecureAfterAddons hx1, by simp⟩))
  have hhttpsL : httpsSpec x ∈ insertedSpecs lookup c :=
    List.mem_append.mpr (Or.inl (List.mem_flatMap.mpr
      ⟨x, mem_insecureAfterAddons hx1, by simp⟩))
  have hmemOf : ∀ r : RegistrySpec, r ∈ insertedSpecs lookup c →
      (∀ e, e.key = r.key → e ∈ insertedSpecs lookup c → e = r) →
      r ∈ (insertedSpecs lookup c).foldl (insertUniqueBy RegistrySpec.key) [] := by
    intro r hrL huniq
    have h1 := @key_mem_foldl_insertUniqueBy _ RegistrySpec.key _
      ([] : List RegistrySpec) _ hrL
    obtain ⟨e, heL, hekey⟩ := List.mem_map.mp h1
    have heIn : e ∈ insertedSpecs lookup c := by
      rcases mem_foldl_insertUniqueBy_elim heL with h | h
      · simp at h
      · exact h
    have hex : e = r := huniq e hekey heIn
    exact hex ▸ heL
  have hhttp_mem : httpSpec x ∈ (insertedSpecs lookup c).foldl (insertUniqueBy RegistrySpec.key) [] :=
    hmemOf (httpSpec x) hhttpL (fun e hk he => (hnc e he).1 hk)
  have hhttps_mem : httpsSpec x ∈ (insertedSpecs lookup c).foldl (insertUniqueBy RegistrySpec.key) [] :=
    hmemOf (httpsSpec x) hhttpsL (fun e hk he => (hnc e he).2 hk)
  have hpair : ((insertedSpecs lookup c).foldl (insertUniqueBy RegistrySpec.key) []).Pairwise
      fun a b => a.key ≠ b.key :=
    (foldl_insertUniqueBy_pairwise RegistrySpec.key (insertedSpecs lookup c)
      (s := []) List.Pairwise.nil).imp fun h => strLtB_ne h
  refine ⟨hhttp_mem, hhttps_mem, ?_, ?_⟩
  · have hle := countP_le_one_of_pairwise_ne hpair
      (fun e => e.scheme == "http" && e.host == x) ("http" ++ x) ?hp
    case hp =>
      intro e he
      rw [Bool.and_eq_true, beq_iff_eq, beq_iff_eq] at he
      unfold RegistrySpec.key
      rw [he.1, he.2]
    have hge : 0 < ((insertedSpecs lookup c).foldl (insertUniqueBy RegistrySpec.key) []).countP
        (fun e => e.scheme == "http" && e.host == x) :=
      List.countP_pos_iff.mpr ⟨httpSpec x, hhttp_mem, by simp [httpSpec]⟩
    omega
  · have hle := countP_le_one_of_pairwise_ne hpair
      (fun e => e.scheme == "https" && e.host == x) ("https" ++ x) ?hp
    case hp =>
      intro e he
      rw [Bool.and_eq_true, beq_iff_eq, beq_iff_eq] at he
      unfold RegistrySpec.key
      rw [he.1, he.2]
    have hge : 0 < ((insertedSpecs lookup c).foldl (insertUniqueBy RegistrySpec.key) []).countP
        (fun e => e.scheme == "https" && e.host == x) :=
      List.countP_pos_iff.mpr ⟨httpsSpec x, hhttps_mem, by simp [httpsSpec]⟩
    omega

/-- C3, witness: the amended theorem at a concrete cluster — host `"x"` in
both sources, a lookup with no hard errors, and no key collisions. -/
theorem getClusterCRIRegistries_dedup_across_sources_witness :
    "x" ∈ (⟨["x"], [], [⟨"x", none⟩]⟩ : Cluster).insecureRegistry ∧
    (∃ regs, getClusterCRIRegistries (fun _ => .notFound) ⟨["x"], [], [⟨"x", none⟩]⟩ =
        .ok (regs, validOf (fun _ => .notFound) [⟨"x", none⟩]) ∧
      httpSpec "x" ∈ regs ∧ httpsSpec "x" ∈ regs ∧
      (regs.countP fun e => e.scheme == "http" && e.host == "x") = 1 ∧
      (regs.countP fun e => e.scheme == "https" && e.host == "x") = 1) :=
  ⟨by decide, getClusterCRIRegistries_dedup_across_sources (fun _ => .notFound)
    ⟨["x"], [], [⟨"x", none⟩]⟩ "x" (by decide) (by decide) (by decide) (by decide)⟩

/-- C4: over the explicit registry list, a `RegistryRef` whose lookup is
not-found is dropped from the rewritten (validated) list and the run
returns successfully with the remaining entries processed (`validOf` keeps
literal entries with the ref normalised to nil and resolved entries, and
drops not-found ones; no surviving entry carries a not-found reference);
any hard (non-not-found) lookup error makes the whole operation return an
error. -/
theorem getClusterCRIRegistries_ref_error_handling :
    (∀ (lookup : String → LookupResult) (c : Cluster),
      (∀ e ∈ c.registries, ¬ entryHardErr lookup e) →
      getClusterCRIRegistries lookup c =
        .ok ((insertedSpecs lookup c).foldl (insertUniqueBy RegistrySpec.key) [],
          validOf lookup c.registries)) ∧
    (∀ (lookup : String → LookupResult) (entries : List CRIRegistry) (e : CRIRegistry)
        (ref : String), e ∈ validOf lookup entries → e.registryRef = some ref →
        lookup ref ≠ .notFound) ∧
    (∀ (lookup : String → LookupResult) (c : Cluster),
      (∃ e ∈ c.registries, entryHardErr lookup e) →
      ∃ msg, getClusterCRIRegistries lookup c = .error msg) :=
  ⟨fun lookup c hok => getClusterCRIRegistries_ok_foldl lookup c hok,
   fun lookup entries e ref h1 h2 => mem_validOf_ref lookup entries e ref h1 h2,
   fun lookup c h => explicitLoop_error lookup c.registries (regsAfterInsecure c) [] h⟩

/-- C5, counterexample: `"v9.9.9"` is outside the supported set, yet
`InstallSteps` returns two steps and no error (the version table is not
consulted by `InstallSteps`; only `CalicoTemplate`, used at render time on
the node, rejects the version). -/
theorem calicoInstallSteps_unsupported_counterexample :
    "v9.9.9" ∉ calicoSupportedVersions ∧
    calicoInstallSteps ⟨"v9.9.9"⟩ false [] [⟨"n1"⟩] =
      .ok [RenderYaml "calico" [⟨"n1"⟩], ApplyYaml "manifests/calico.yaml" [⟨"n1"⟩]] ∧
    CalicoTemplate ⟨"v9.9.9"⟩ = .error "calico dose not support version: v9.9.9" :=
  ⟨by decide, rfl, rfl⟩

/-- C5 (amended): `InstallSteps` returns a non-empty step list and no error
for *every* calico version, supported or not (the branch is on the
kubernetes version, and both branches succeed); the closed version table is
enforced only by `CalicoTemplate` at render time, which returns a template
exactly for the six supported versions and a hard error for any other
version. -/
theorem calicoInstallSteps_total_and_template_table :
    (∀ (r : CalicoRunnable) (isHigh : Bool) (chartSteps : List Step) (nodes : List Node),
      ∃ steps, calicoInstallSteps r isHigh chartSteps nodes = .ok steps ∧ steps ≠ []) ∧
    (∀ r : CalicoRunnable,
      r.version ∈ calicoSupportedVersions ↔ ∃ t, CalicoTemplate r = .ok t) ∧
    (∀ r : CalicoRunnable, r.version ∉ calicoSupportedVersions →
      CalicoTemplate r = .error ("calico dose not support version: " ++ r.version)) := by
  refine ⟨?_, ?_, ?_⟩
  · intro r isHigh chartSteps nodes
    cases isHigh with
    | false => exact ⟨_, rfl, by simp⟩
    | true => exact ⟨_, rfl, by simp⟩
  · intro r
    unfold CalicoTemplate
    split <;> simp_all [calicoSupportedVersions]
  · intro r h
    unfold CalicoTemplate
    split <;> simp_all [calicoSupportedVersions]

/-- C7, counterexample: a hard (non-nil) return can occur without any
kill-signal failure — a container whose `task.Wait` errors makes
`deleteContainer` return that error even though the kill outcome of every
container is success. -/
theorem deleteContainer_wait_error_counterexample :
    deleteContainerLoop [⟨some ⟨some "wait-chan-error", .ok, none, false⟩, false⟩] =
      .error "wait-chan-error" ∧
    (⟨some ⟨some "wait-chan-error", .ok, none, false⟩, false⟩ : Container).task.map
      TaskModel.killOutcome = some .ok :=
  ⟨rfl, rfl⟩

/-- C7 (amended): the teardown loop returns success exactly when no
container hard-fails, where a hard failure is a wait-channel failure, an
unexpected (non-not-found) kill-signal failure, or an exit-status
retrieval failure; a container with no task, a not-found kill response,
and failures of `task.Delete` or `ctr.Delete` are all tolerated — in
particular the sequence returns success when the only failures were task
lookups. -/
theorem deleteContainerLoop_ok_iff (ctrs : List Container) :
    deleteContainerLoop ctrs = .ok () ↔ ∀ c ∈ ctrs, ¬ containerFatal c := by
  induction ctrs with
  | nil => simp [deleteContainerLoop]
  | cons c rest ih =>
    rw [List.forall_mem_cons]
    cases hc : c.task with
    | none =>
      have hnf : ¬ containerFatal c := by
        rintro ⟨t, ht, -⟩
        rw [hc] at ht
        cases ht
      simp [deleteContainerLoop, hc, ih, hnf]
    | some t =>
      cases hw : t.waitErr with
      | some e =>
        have hf : containerFatal c := ⟨t, hc, Or.inl (by simp [hw])⟩
        simp [deleteContainerLoop, hc, hw, hf]
      | none =>
        cases hk : t.killOutcome with
        | notFound =>
          have hnf : ¬ containerFatal c := by
            rintro ⟨t2, ht2, h⟩
            rw [hc] at ht2
            injection ht2 with ht2
            subst ht2
            rcases h with h | ⟨e, h⟩ | ⟨h, -⟩
            · exact h hw
            · rw [hk] at h
              cases h
            · rw [hk] at h
              cases h
          simp [deleteContainerLoop, hc, hw, hk, ih, hnf]
        | otherError e =>
          have hf : containerFatal c := ⟨t, hc, Or.inr (Or.inl ⟨e, hk⟩)⟩
          simp [deleteContainerLoop, hc, hw, hk, hf]
        | ok =>
          cases hr : t.resultErr with
          | some e =>
            have hf : containerFatal c := ⟨t, hc, Or.inr (Or.inr ⟨hk, by simp [hr]⟩)⟩
            simp [deleteContainerLoop, hc, hw, hk, hr, hf]
          | none =>
            have hnf : ¬ containerFatal c := by
              rintro ⟨t2, ht2, h⟩
              rw [hc] at ht2
              injection ht2 with ht2
              subst ht2
              rcases h with h | ⟨e, h⟩ | ⟨-, h⟩
              · exact h hw
              · rw [hk] at h
                cases h
              · exact h hr
            simp [deleteContainerLoop, hc, hw, hk, hr, ih, hnf]

/-- C8: reconciliation of the per-host trust-store directories — with
existing subdirectories `{a, b}` and desired hosts `{b, c}` (all distinct,
renders succeeding), afterwards `a` is removed, `b` is re-rendered from its
desired registry and `c` is newly created; a missing config dir is treated
as zero existing entries; and a failure to remove the stale `a` is
tolerated (the operation still succeeds, with `a` left behind). -/
theorem containerdRegistryConfigure_reconcile
    (a b c : String) (rb rc : ContainerdRegistry)
    (hab : a ≠ b) (hac : a ≠ c) (hbc : b ≠ c)
    (hrb : rb.server = b) (hrc : rc.server = c) :
    (∃ fs, containerdRegistryConfigureInstall (.ok [(a, true), (b, true)]) [rb, rc]
        (fun _ => false) (fun _ => false) = .ok fs ∧
      fsGet fs a = none ∧ fsGet fs b = some (.rendered rb) ∧
        fsGet fs c = some (.rendered rc)) ∧
    (∃ fs, containerdRegistryConfigureInstall .notExist [rb, rc]
        (fun _ => false) (fun _ => false) = .ok fs ∧
      fsGet fs b = some (.rendered rb) ∧ fsGet fs c = some (.rendered rc)) ∧
    (∃ fs, containerdRegistryConfigureInstall (.ok [(a, true), (b, true)]) [rb, rc]
        (fun _ => false) (fun d => d == a) = .ok fs ∧
      fsGet fs a = some .legacy ∧ fsGet fs b = some (.rendered rb) ∧
        fsGet fs c = some (.rendered rc)) := by
  refine ⟨⟨_, rfl, ?_⟩, ⟨_, rfl, ?_⟩, ⟨_, rfl, ?_⟩⟩ <;>
    simp [containerdRegistryConfigureInstall, installAfterRead, fsSet, fsRemove, fsGet,
      hab, hac, hbc, hrb, hrc, Ne.symm hab, Ne.symm hac, Ne.symm hbc, beq_iff_eq]

/-- C8, witness: the reconciliation theorem at concrete directories
`{a, b}` and desired hosts `{b, c}`. -/
theorem containerdRegistryConfigure_reconcile_witness :
    ("a" : String) ≠ "b" ∧
    ((∃ fs, containerdRegistryConfigureInstall (.ok [("a", true), ("b", true)])
        [⟨"b", []⟩, ⟨"c", []⟩] (fun _ => false) (fun _ => false) = .ok fs ∧
      fsGet fs "a" = none ∧ fsGet fs "b" = some (.rendered ⟨"b", []⟩) ∧
        fsGet fs "c" = some (.rendered ⟨"c", []⟩)) ∧
    (∃ fs, containerdRegistryConfigureInstall .notExist
        [⟨"b", []⟩, ⟨"c", []⟩] (fun _ => false) (fun _ => false) = .ok fs ∧
      fsGet fs "b" = some (.rendered ⟨"b", []⟩) ∧ fsGet fs "c" = some (.rendered ⟨"c", []⟩)) ∧
    (∃ fs, containerdRegistryConfigureInstall (.ok [("a", true), ("b", true)])
        [⟨"b", []⟩, ⟨"c", []⟩] (fun _ => false) (fun d => d == "a") = .ok fs ∧
      fsGet fs "a" = some .legacy ∧ fsGet fs "b" = some (.rendered ⟨"b", []⟩) ∧
        fsGet fs "c" = some (.rendered ⟨"c", []⟩))) :=
  ⟨by decide, containerdRegistryConfigure_reconcile "a" "b" "c" ⟨"b", []⟩ ⟨"c", []⟩
    (by decide) (by decide) (by decide) rfl rfl⟩

theorem isDigitB_bounds {c : Char} (h : isDigitB c = true) :
    48 ≤ c.toNat ∧ c.toNat ≤ 57 := by
  rw [isDigitB, Bool.and_eq_true, decide_eq_true_eq, decide_eq_true_eq] at h
  exact h

theorem atoi3_iff (c1 c2 c3 : Char) :
    125 ≤ goAtoiOrZero [c1, c2, c3] ↔
      ([c1, c2, c3].all isDigitB = true ∧ 125 ≤ decimalVal [c1, c2, c3]) := by
  by_cases h1 : c1 = '+'
  · subst h1
    simp only [goAtoiOrZero]
    rw [if_pos trivial]
    constructor
    · intro h
      exfalso
      cases hd2 : isDigitB c2 with
      | false =>
        rw [show digitsValAux 0 [c2, c3] = none by simp [digitsValAux, hd2]] at h
        norm_num at h
      | true =>
        cases hd3 : isDigitB c3 with
        | false =>
          rw [show digitsValAux 0 [c2, c3] = none by simp [digitsValAux, hd2, hd3]] at h
          norm_num at h
        | true =>
          obtain ⟨hb2a, hb2b⟩ := isDigitB_bounds hd2
          obtain ⟨hb3a, hb3b⟩ := isDigitB_bounds hd3
          rw [show digitsValAux 0 [c2, c3] =
              some ((0 * 10 + (c2.toNat - 48)) * 10 + (c3.toNat - 48)) by
            simp [digitsValAux, hd2, hd3]] at h
          simp only [] at h
          have h2 : 125 ≤ (0 * 10 + (c2.toNat - 48)) * 10 + (c3.toNat - 48) := by
            exact_mod_cast h
          omega
    · rintro ⟨hall, -⟩
      simp only [List.all_cons, Bool.and_eq_true] at hall
      exact absurd (hall.1.symm.trans (show isDigitB '+' = false by decide)) (by decide)
  · by_cases h2 : c1 = '-'
    · subst h2
      simp only [goAtoiOrZero]
      rw [if_pos trivial]
      constructor
      · intro h
        exfalso
        cases hd : digitsValAux 0 [c2, c3] with
        | none =>
          rw [hd] at h
          norm_num at h
        | some n =>
          rw [hd] at h
          simp only [] at h
          have h2 : (125 : Int) ≤ -(n : Int) := h
          omega
      · rintro ⟨hall, -⟩
        simp only [List.all_cons, Bool.and_eq_true] at hall
        exact absurd (hall.1.symm.trans (show isDigitB '-' = false by decide)) (by decide)
    · simp only [goAtoiOrZero]
      rw [if_neg h1, if_neg h2]
      by_cases hd1 : isDigitB c1 = true
      · by_cases hd2 : isDigitB c2 = true
        · by_cases hd3 : isDigitB c3 = true
          · obtain ⟨hb1a, hb1b⟩ := isDigitB_bounds hd1
            obtain ⟨hb2a, hb2b⟩ := isDigitB_bounds hd2
            obtain ⟨hb3a, hb3b⟩ := isDigitB_bounds hd3
            rw [show digitsValAux 0 [c1, c2, c3] =
                some (((0 * 10 + (c1.toNat - 48)) * 10 + (c2.toNat - 48)) * 10 + (c3.toNat - 48))
              by simp [digitsValAux, hd1, hd2, hd3]]
            have hdec : decimalVal [c1, c2, c3] =
                ((0 * 10 + (c1.toNat - 48)) * 10 + (c2.toNat - 48)) * 10 + (c3.toNat - 48) := rfl
            rw [hdec]
            simp only [List.all_cons, List.all_nil, Bool.and_eq_true, hd1, hd2, hd3]
            constructor
            · intro h
              refine ⟨by simp, ?_⟩
              exact_mod_cast h
            · rintro ⟨-, h⟩
              exact_mod_cast h
          · rw [show digitsValAux 0 [c1, c2, c3] = none by simp [digitsValAux, hd1, hd2, hd3]]
            simp only [List.all_cons, Bool.and_eq_true]
            constructor
            · intro h
              norm_num at h
            · rintro ⟨⟨-, -, h3, -⟩, -⟩
              exact absurd h3 hd3
        · rw [show digitsValAux 0 [c1, c2, c3] = none by simp [digitsValAux, hd1, hd2]]
          simp only [List.all_cons, Bool.and_eq_true]
          constructor
          · intro h
            norm_num at h
          · rintro ⟨⟨-, h3, -⟩, -⟩
            exact absurd h3 hd2
      · rw [show digitsValAux 0 [c1, c2, c3] = none by simp [digitsValAux, hd1]]
        simp only [List.all_cons, Bool.and_eq_true]
        constructor
        · intro h
          norm_num at h
        · rintro ⟨⟨h3, -⟩, -⟩
          exact absurd h3 hd1

theorem length_eq_three_exists {l : List Char} (h : l.length = 3) :
    ∃ a b c, l = [a, b, c] := by
  match l, h with
  | [a, b, c], _ => exact ⟨a, b, c, rfl⟩

/-- C10, counterexample: the input `"v."` is non-empty but strips to the
empty string, which the claim places inside the precondition (with result
`("", "k8s.gcr.io")`); the code, however, only short-circuits on the
*original* empty string, so `"v."` reaches
`strings.Split(...)[0:3]` on an empty slice and panics. -/
theorem matchPauseVersion_strip_empty_counterexample :
    stripVC "v." = [] ∧ matchPauseVersion (fun _ => "") "v." = none :=
  ⟨rfl, rfl⟩

/-- C10 (amended): `matchPauseVersion` is total exactly on inputs that are
empty or whose stripped form (every `v` and `.` removed) has at least three
characters.  The empty input yields `("", "k8s.gcr.io")`; a non-empty input
whose stripped form has fewer than three characters (including a stripped
form that is empty) panics; otherwise the result is the pause-map entry for
the first three stripped characters, with registry `"registry.k8s.io"`
exactly when those three characters are all digits whose decimal value is
at least 125, and `"k8s.gcr.io"` otherwise. -/
theorem matchPauseVersion_characterisation (pauseMap : String → String) (s : String) :
    ((matchPauseVersion pauseMap s).isSome = true ↔
      (s = "" ∨ 3 ≤ (stripVC s).length)) ∧
    (s = "" → matchPauseVersion pauseMap s = some ("", "k8s.gcr.io")) ∧
    (s ≠ "" → 3 ≤ (stripVC s).length →
      matchPauseVersion pauseMap s =
        some (pauseMap (String.mk ((stripVC s).take 3)),
          if ((stripVC s).take 3).all isDigitB = true ∧ 125 ≤ decimalVal ((stripVC s).take 3)
          then "registry.k8s.io" else "k8s.gcr.io")) := by
  refine ⟨?_, ?_, ?_⟩
  · by_cases he : s = ""
    · simp [matchPauseVersion, he]
    · by_cases hlen : (stripVC s).length < 3
      · simp [matchPauseVersion, he, hlen]
        try omega
      · simp [matchPauseVersion, he, hlen]
        try omega
  · intro he
    simp [matchPauseVersion, he]
  · intro he hlen
    have hl3 : ((stripVC s).take 3).length = 3 := by
      rw [List.length_take]
      omega
    obtain ⟨a, b, c, habc⟩ := length_eq_three_exists hl3
    have hiff := atoi3_iff a b c
    rw [matchPauseVersion, if_neg he, if_neg (by omega)]
    rw [habc]
    rw [if_congr (Iff.symm hiff) rfl rfl]

theorem head?_mem_list {l : List Nat} {n : Nat} (h : l.head? = some n) : n ∈ l := by
  cases l with
  | nil => simp at h
  | cons a t =>
    simp only [List.head?_cons, Option.some.injEq] at h
    subst h
    exact List.mem_cons_self a t

theorem startsWithChars_length : ∀ {pat cs : List Char},
    startsWithChars pat cs = true → pat.length ≤ cs.length
  | [], _, _ => by simp
  | p :: ps, [], h => by simp [startsWithChars] at h
  | p :: ps, c :: cs, h => by
    simp only [startsWithChars, Bool.and_eq_true] at h
    have := startsWithChars_length h.2
    simp only [List.length_cons]
    omega

theorem startsWithChars_of_take : ∀ {pat l : List Char} {n : Nat},
    startsWithChars pat (l.take n) = true → startsWithChars pat l = true
  | [], _, _, _ => rfl
  | p :: ps, l, 0, h => by simp [startsWithChars] at h
  | p :: ps, [], n + 1, h => by simp [startsWithChars] at h
  | p :: ps, c :: cs, n + 1, h => by
    simp only [List.take_succ_cons, startsWithChars, Bool.and_eq_true] at h ⊢
    exact ⟨h.1, startsWithChars_of_take h.2⟩

theorem startsWithChars_take : ∀ {pat cs : List Char} {n : Nat},
    startsWithChars pat cs = true → pat.length ≤ n → startsWithChars pat (cs.take n) = true
  | [], _, _, _, _ => rfl
  | p :: ps, [], _, h, _ => by simp [startsWithChars] at h
  | p :: ps, c :: cs, 0, _, hn => by
    simp only [List.length_cons] at hn
    exact absurd hn (by omega)
  | p :: ps, c :: cs, n + 1, h, hn => by
    simp only [startsWithChars, Bool.and_eq_true] at h
    simp only [List.take_succ_cons, startsWithChars, Bool.and_eq_true]
    refine ⟨h.1, startsWithChars_take h.2 ?_⟩
    simp only [List.length_cons] at hn
    omega

theorem startsWithChars_self : ∀ l : List Char, startsWithChars l l = true
  | [] => rfl
  | c :: cs => by
    simp only [startsWithChars, Bool.and_eq_true]
    exact ⟨by simp, startsWithChars_self cs⟩

theorem containsSeq_cons_of {pat cs : List Char} {c : Char}
    (h : containsSeq pat cs = true) : containsSeq pat (c :: cs) = true := by
  simp only [containsSeq, Bool.or_eq_true]
  exact Or.inr h

theorem containsSeq_of_startsWith : ∀ {pat cs : List Char},
    startsWithChars pat cs = true → containsSeq pat cs = true
  | pat, [], h => by
    cases pat with
    | nil => rfl
    | cons p ps => simp [startsWithChars] at h
  | pat, c :: cs, h => by
    simp only [containsSeq, Bool.or_eq_true]
    exact Or.inl h

theorem containsSeq_nil_pat : ∀ l : List Char, containsSeq [] l = true
  | [] => rfl
  | _ :: cs => by
    simp only [containsSeq, Bool.or_eq_true]
    exact Or.inl rfl

theorem containsSeq_self (l : List Char) : containsSeq l l = true :=
  containsSeq_of_startsWith (startsWithChars_self l)

theorem containsSeq_of_take : ∀ {pat : List Char} (l : List Char) (n : Nat),
    containsSeq pat (l.take n) = true → containsSeq pat l = true
  | pat, l, 0, h => by
    simp only [List.take_zero] at h
    cases pat with
    | nil => exact containsSeq_nil_pat l
    | cons p ps => simp [containsSeq] at h
  | pat, [], n + 1, h => by simpa using h
  | pat, c :: cs, n + 1, h => by
    simp only [List.take_succ_cons, containsSeq, Bool.or_eq_true] at h ⊢
    rcases h with h | h
    · exact Or.inl (@startsWithChars_of_take _ (c :: cs) (n + 1) h)
    · exact Or.inr (containsSeq_of_take cs n h)

theorem containsSeq_of_drop : ∀ {pat : List Char} (l : List Char) (d : Nat),
    containsSeq pat (l.drop d) = true → containsSeq pat l = true
  | _, _, 0, h => h
  | pat, [], d + 1, h => by simpa using h
  | pat, c :: cs, d + 1, h => by
    simp only [List.drop_succ_cons] at h
    exact containsSeq_cons_of (containsSeq_of_drop cs d h)

theorem containsSeq_append_right {pat : List Char} : ∀ (s : List Char) {t : List Char},
    containsSeq pat t = true → containsSeq pat (s ++ t) = true
  | [], _, h => h
  | c :: cs, t, h => containsSeq_cons_of (containsSeq_append_right cs h)

theorem take_split : ∀ (l : List Char) (m n : Nat),
    l.take (m + n) = l.take m ++ (l.drop m).take n
  | _, 0, _ => by simp
  | [], _ + 1, _ => by simp
  | c :: cs, m + 1, n => by
    simp only [List.drop_succ_cons]
    have hmn : m + 1 + n = (m + n) + 1 := by omega
    rw [hmn, List.take_succ_cons, List.take_succ_cons, take_split cs m n]
    simp

theorem takeWhile_len_le (p : Char → Bool) : ∀ l : List Char,
    (l.takeWhile p).length ≤ l.length
  | [] => by simp
  | c :: cs => by
    simp only [List.takeWhile_cons]
    split
    · simp only [List.length_cons]
      exact Nat.succ_le_succ (takeWhile_len_le p cs)
    · simp
theorem runAll_extent_le : ∀ (fuel : Nat) (items : List RItem) (cs : List Char) (n : Nat),
    n ∈ runAll fuel items cs → n ≤ cs.length := by
  intro fuel
  induction fuel with
  | zero => intro items cs n h; simp [runAll] at h
  | succ fuel ih =>
    intro items cs n h
    cases items with
    | nil =>
      simp only [runAll, List.mem_singleton] at h
      omega
    | cons item rest =>
      cases item with
      | lit c s =>
        simp only [runAll] at h
        split at h
        next hsw =>
          rcases List.mem_map.mp h with ⟨m, hm, rfl⟩
          have h1 := ih rest _ _ hm
          have h2 : (c :: s).length ≤ cs.length := startsWithChars_length hsw
          simp only [List.length_drop] at h1
          simp only [List.length_cons] at h2
          omega
        next => simp at h
      | dotLazy =>
        simp only [runAll] at h
        rcases List.mem_append.mp h with h | h
        · exact ih rest cs n h
        · cases cs with
          | nil => simp at h
          | cons ch cs2 =>
            simp only [] at h
            split at h
            · simp at h
            · rcases List.mem_map.mp h with ⟨m, hm, rfl⟩
              have h1 := ih _ _ _ hm
              simp only [List.length_cons]
              omega
      | clsPlus ws =>
        simp only [runAll] at h
        rcases List.mem_flatMap.mp h with ⟨j, hj, hmem⟩
        rcases List.mem_map.mp hmem with ⟨m, hm, rfl⟩
        rcases List.mem_map.mp hj with ⟨t, ht, rfl⟩
        have ht2 := List.mem_range.mp ht
        have hr := takeWhile_len_le (clsMem ws) cs
        have h1 := ih rest _ _ hm
        simp only [List.length_drop] at h1
        omega

theorem runAll_lits : ∀ (fuel : Nat) (items : List RItem) (cs : List Char) (n : Nat),
    n ∈ runAll fuel items cs → ∀ l ∈ litsOf items, containsSeq l (cs.take n) = true := by
  intro fuel
  induction fuel with
  | zero => intro items cs n h; simp [runAll] at h
  | succ fuel ih =>
    intro items cs n h l hl
    cases items with
    | nil => simp [litsOf] at hl
    | cons item rest =>
      cases item with
      | lit c s =>
        simp only [runAll] at h
        split at h
        next hsw =>
          rcases List.mem_map.mp h with ⟨m, hm, rfl⟩
          simp only [litsOf, List.mem_cons] at hl
          rcases hl with rfl | hl
          · refine containsSeq_of_startsWith (startsWithChars_take hsw ?_)
            simp only [List.length_cons]
            omega
          · have hc := ih rest _ _ hm l hl
            rw [show m + (s.length + 1) = (s.length + 1) + m by omega, take_split]
            exact containsSeq_append_right _ hc
        next => simp at h
      | dotLazy =>
        simp only [runAll] at h
        simp only [litsOf] at hl
        rcases List.mem_append.mp h with h | h
        · exact ih rest _ _ h l hl
        · cases cs with
          | nil => simp at h
          | cons ch cs2 =>
            simp only [] at h
            split at h
            · simp at h
            · rcases List.mem_map.mp h with ⟨m, hm, rfl⟩
              have hc := ih _ _ _ hm l hl
              exact containsSeq_cons_of hc
      | clsPlus ws =>
        simp only [runAll] at h
        simp only [litsOf] at hl
        rcases List.mem_flatMap.mp h with ⟨j, hj, hmem⟩
        rcases List.mem_map.mp hmem with ⟨m, hm, rfl⟩
        have hc := ih rest _ _ hm l hl
        rw [show m + j = j + m by omega, take_split]
        exact containsSeq_append_right _ hc
theorem findFrom_some {items : List RItem} : ∀ (cs : List Char) {i n : Nat},
    findFrom items cs = some (i, n) → n ∈ runAllTop items (cs.drop i) := by
  intro cs
  induction cs with
  | nil =>
    intro i n h
    simp only [findFrom] at h
    cases h0 : (runAllTop items []).head? with
    | none => rw [h0] at h; simp at h
    | some m =>
      rw [h0] at h
      simp only [Option.map_some', Option.some.injEq, Prod.mk.injEq] at h
      rcases h with ⟨rfl, rfl⟩
      exact head?_mem_list h0
  | cons c rest ihr =>
    intro i n h
    simp only [findFrom] at h
    cases h0 : (runAllTop items (c :: rest)).head? with
    | some m =>
      rw [h0] at h
      simp only [Option.some.injEq, Prod.mk.injEq] at h
      rcases h with ⟨rfl, rfl⟩
      exact head?_mem_list h0
    | none =>
      rw [h0] at h
      simp only [] at h
      cases h1 : findFrom items rest with
      | none => rw [h1] at h; simp at h
      | some p =>
        obtain ⟨pi, pn⟩ := p
        rw [h1] at h
        simp only [Option.map_some', Option.some.injEq, Prod.mk.injEq] at h
        rcases h with ⟨rfl, rfl⟩
        exact ihr h1

theorem findFrom_none {items : List RItem} : ∀ (cs : List Char),
    (∀ p, runAllTop items (cs.drop p) = []) → findFrom items cs = none := by
  intro cs
  induction cs with
  | nil =>
    intro h
    have h0 := h 0
    simp only [List.drop_zero] at h0
    simp only [findFrom]
    rw [h0]
    rfl
  | cons c rest ihr =>
    intro h
    have h0 := h 0
    simp only [List.drop_zero] at h0
    simp only [findFrom]
    rw [h0]
    have hrec : findFrom items rest = none :=
      ihr fun p => by simpa only [List.drop_succ_cons] using h (p + 1)
    simp only [hrec]
    rfl

theorem findAllAux_mem {items : List RItem} : ∀ (fuel : Nat) (cs : List Char) {x : List Char},
    x ∈ findAllAux items fuel cs →
    ∃ d m, x = (cs.drop d).take m ∧ m ∈ runAllTop items (cs.drop d) := by
  intro fuel
  induction fuel with
  | zero => intro cs x h; simp [findAllAux] at h
  | succ fuel ih =>
    intro cs x h
    simp only [findAllAux] at h
    cases h1 : findFrom items cs with
    | none => rw [h1] at h; simp at h
    | some p =>
      obtain ⟨i, m⟩ := p
      rw [h1] at h
      simp only [List.mem_cons] at h
      rcases h with rfl | h
      · exact ⟨i, m, rfl, findFrom_some cs h1⟩
      · obtain ⟨d, m2, hx, hm⟩ := ih _ h
        rw [List.drop_drop] at hx hm
        exact ⟨i + max m 1 + d, m2, hx, hm⟩
/-- C9 counterexample: with a control-plane join line followed by a flagless
worker join line, extractJoinCommands returns empty strings for both
commands, although the flagless line is a substring of the sanitized output
that matches the worker pattern in full (extent = its length) and does not
contain the control-plane flag.  FindAllString only surfaces non-overlapping
leftmost-first matches: the leftmost worker-pattern match starts at the
first kubeadm join and swallows the flag, so the filter never sees the
flagless line.  In the opposite line order the worker command is returned,
so the result does depend on the order of the lines. -/
theorem extractJoinCommands_overlap_counterexample :
    extractJoinCommands overlapOutput = ([], []) ∧
    overlapWorkerLine.length ∈ runAllTop workerRE overlapWorkerLine ∧
    containsSeq overlapWorkerLine (sanitizeCommand overlapOutput) = true ∧
    containsSeq ("--control-plane".data) overlapWorkerLine = false :=
  ⟨rfl, by decide, rfl, rfl⟩

/-- C9 (amended): for every raw output, the master command is empty or is a
substring of the sanitized output containing the control-plane and
certificate-key flags; it is empty whenever the master pattern matches at
no position.  The worker command is empty or is a substring of the
sanitized output containing the token and discovery-token-ca-cert-hash
flags and not the control-plane flag; it is empty whenever the worker
pattern matches at no position.  (The original claim - that the worker
command is the first matching substring without the flag - fails, because
the filter only ranges over the non-overlapping leftmost-first matches.) -/
theorem extractJoinCommands_characterisation : ∀ output : List Char,
    ((extractJoinCommands output).1 = [] ∨
      (containsSeq (extractJoinCommands output).1 (sanitizeCommand output) = true ∧
       containsSeq ("--control-plane".data) (extractJoinCommands output).1 = true ∧
       containsSeq ("--certificate-key".data) (extractJoinCommands output).1 = true)) ∧
    ((∀ p, runAllTop masterRE ((sanitizeCommand output).drop p) = []) →
      (extractJoinCommands output).1 = []) ∧
    ((extractJoinCommands output).2 = [] ∨
      (containsSeq (extractJoinCommands output).2 (sanitizeCommand output) = true ∧
       containsSeq ("--token".data) (extractJoinCommands output).2 = true ∧
       containsSeq ("--discovery-token-ca-cert-hash".data) (extractJoinCommands output).2 = true ∧
       containsSeq ("--control-plane".data) (extractJoinCommands output).2 = false)) ∧
    ((∀ p, runAllTop workerRE ((sanitizeCommand output).drop p) = []) →
      (extractJoinCommands output).2 = []) := by
  intro output
  refine ⟨?_, ?_, ?_, ?_⟩
  · cases hm : findAllGo masterRE (sanitizeCommand output) with
    | nil => left; simp [extractJoinCommands, hm]
    | cons x xs =>
      right
      have hx : x ∈ findAllGo masterRE (sanitizeCommand output) := by
        rw [hm]; exact List.mem_cons_self _ _
      obtain ⟨d, m, hxe, hmem⟩ := findAllAux_mem _ _ hx
      have h1 : (extractJoinCommands output).1 = x := by simp [extractJoinCommands, hm]
      rw [h1]
      refine ⟨?_, ?_, ?_⟩
      · refine containsSeq_of_drop _ d (containsSeq_of_take _ m ?_)
        rw [← hxe]
        exact containsSeq_self x
      · have hl := runAll_lits _ _ _ _ hmem ("--control-plane".data) (by decide)
        rw [hxe]
        exact hl
      · have hl := runAll_lits _ _ _ _ hmem ("--certificate-key".data) (by decide)
        rw [hxe]
        exact hl
  · intro hp
    have h1 : findFrom masterRE (sanitizeCommand output) = none := findFrom_none _ hp
    simp [extractJoinCommands, findAllGo, findAllAux, h1]
  · cases hw : (findAllGo workerRE (sanitizeCommand output)).find?
        (fun m => !containsSeq ("--control-plane".data) m) with
    | none => left; simp [extractJoinCommands, hw]
    | some x =>
      right
      have hx1 : x ∈ findAllGo workerRE (sanitizeCommand output) :=
        List.mem_of_find?_eq_some hw
      have hx2 := List.find?_some hw
      obtain ⟨d, m, hxe, hmem⟩ := findAllAux_mem _ _ hx1
      have h2 : (extractJoinCommands output).2 = x := by simp [extractJoinCommands, hw]
      rw [h2]
      refine ⟨?_, ?_, ?_, ?_⟩
      · refine containsSeq_of_drop _ d (containsSeq_of_take _ m ?_)
        rw [← hxe]
        exact containsSeq_self x
      · have hl := runAll_lits _ _ _ _ hmem ("--token".data) (by decide)
        rw [hxe]
        exact hl
      · have hl := runAll_lits _ _ _ _ hmem ("--discovery-token-ca-cert-hash".data) (by decide)
        rw [hxe]
        exact hl
      · simpa using hx2
  · intro hp
    have h1 : findFrom workerRE (sanitizeCommand output) = none := findFrom_none _ hp
    simp [extractJoinCommands, findAllGo, findAllAux, h1]
